import Mathlib

/-!
Shallow embedding of the graph data structure of `src/src/hip_graph_internal.hpp`
(the HIP graph capture/replay engine) and proofs about its structural-edit
algorithms.  Nodes live on a heap addressed by node id; each node carries the
fields of `struct hipGraphNode` that the structural algorithms touch.  Levels
are modelled as unbounded naturals: the C++ `uint32_t`/`int32_t` representation
agrees with this model for all levels below `2^31`, and no claim under study
concerns wrap-around.  The `size_t` degree counters are modelled as naturals
with truncated subtraction; the decrement sites are only reached when the
corresponding list membership test has already succeeded, so the underflow
case of `size_t` is never exercised on states whose counters dominate the
list lengths.
-/

namespace HipGraph

/-- One vertex of the HIP operation DAG: the fields of `hipGraphNode` used by
the structural-edit algorithms (`level_`, `inDegree_`, `outDegree_`, `edges_`,
`dependencies_`), with neighbor pointers replaced by node ids. -/
structure GNode where
  level : Nat
  inDegree : Nat
  outDegree : Nat
  edges : List Nat
  deps : List Nat
  deriving DecidableEq, Repr

/-- The node heap: every id denotes a node (ids not yet created simply map to
an inert node record). -/
def State := Nat → GNode

/-- Point update of one node on the heap. -/
def updNode (s : State) (i : Nat) (f : GNode → GNode) : State :=
  fun j => if j = i then f (s j) else s j

/-- Model of `hipGraphNode::SetLevel`. -/
def setLevel (s : State) (i : Nat) (l : Nat) : State :=
  updNode s i (fun n => { n with level := l })

/-- Model of `hipGraphNode::RemoveDependency`: erases every occurrence of `p`
from `c`'s dependency list (`std::remove` + `erase`), touching nothing else —
in particular it does not decrement `inDegree_`. -/
def removeDependency (s : State) (c p : Nat) : State :=
  updNode s c (fun n => { n with deps := n.deps.filter (fun q => decide (q ≠ p)) })

/-- Model of `hipGraphNode::AddDependency`: appends `p` to `c`'s dependency
list. -/
def addDependency (s : State) (c p : Nat) : State :=
  updNode s c (fun n => { n with deps := n.deps ++ [p] })

/-- Model of `hipGraphNode::RemoveEdge` (header lines 185-206).  When `c` is
not in `p`'s edge list it returns `false` without touching the state.
Otherwise it erases every copy of `c` from `p`'s edge list, decrements
`p.outDegree` once, decrements `c.inDegree` once, recomputes `c.level` as the
running maximum of `parent.level + 1` over `c`'s dependency list — which at
that point still contains `p` — and only then erases `p` from `c`'s
dependency list. -/
def removeEdge (s : State) (p c : Nat) : Bool × State :=
  if c ∈ (s p).edges then
    let s1 := updNode s p
      (fun n => { n with edges := n.edges.filter (fun q => decide (q ≠ c)),
                         outDegree := n.outDegree - 1 })
    let s2 := updNode s1 c (fun n => { n with inDegree := n.inDegree - 1 })
    let lvl := ((s2 c).deps).foldl (fun acc q => max acc ((s2 q).level + 1)) 0
    let s3 := setLevel s2 c lvl
    (true, removeDependency s3 c p)
  else (false, s)

/-- Model of `hipGraphNode::UpdateEdgeLevel` (header lines 169-174), a DFS
that for each child raises its level to at least the parent's level plus one
and recurses.  The source recursion has no termination device; it is embedded
with explicit fuel, `none` meaning the fuel ran out.  Each loop iteration
re-reads the current levels of both nodes, as the source does. -/
def uel : Nat → State → Nat → Option State
  | 0, _, _ => none
  | f + 1, s, n =>
      (s n).edges.foldlM
        (fun st e => uel f (setLevel st e (max ((st e).level) ((st n).level + 1))) e) s

/-- One iteration of the `UpdateEdgeLevel` loop body: raise the child's level
and recurse into it. -/
def uelStep (f n : Nat) (st : State) (e : Nat) : Option State :=
  uel f (setLevel st e (max ((st e).level) ((st n).level + 1))) e

/-- The `UpdateEdgeLevel` loop over an explicit edge list. -/
def uelL (f n : Nat) (s : State) (l : List Nat) : Option State :=
  l.foldlM (uelStep f n) s

/-- Model of `hipGraphNode::AddEdge` (header lines 176-183): append `c` to
`p`'s edge list, bump `p.outDegree` and `c.inDegree`, raise `c.level` to at
least `p.level + 1`, propagate recursively through `UpdateEdgeLevel`, then
append `p` to `c`'s dependency list. -/
def addEdge (fuel : Nat) (s : State) (p c : Nat) : Option State :=
  let s1 := updNode s p
    (fun n => { n with edges := n.edges ++ [c], outDegree := n.outDegree + 1 })
  let s2 := updNode s1 c (fun n => { n with inDegree := n.inDegree + 1 })
  let s3 := setLevel s2 c (max ((s2 c).level) ((s2 p).level + 1))
  (uel fuel s3 c).map (fun s4 => addDependency s4 c p)

/-- Model of the child half of `~hipGraphNode` (header lines 89-98): every
child of the dying node gets `RemoveDependency` — and nothing else, so the
child's `inDegree_` is left as it was. -/
def detachChildren (s : State) (x : Nat) : State :=
  ((s x).edges).foldl (fun acc c => removeDependency acc c x) s

/-- The parent half of `~hipGraphNode`: `node->RemoveEdge(this)` for each
entry of `dependencies_`.  The source's range-for captures `end()` once and
each `RemoveEdge` erases from the very vector being iterated, so the loop de
facto walks all of the vector's original slots: an erase compacts the kept
elements to the front and leaves shifted stale copies in the tail (a
`std::vector` erase neither moves the buffer nor clears the slots beyond the
new size).  `mem` is that physical slot array — `erased-prefix ++ stale
tail` — re-derived after each call from the node's live dependency list; a
stale slot can re-present an already-detached parent, whose second
`RemoveEdge` finds nothing and no-ops, exactly as in the program. -/
def detachParentsAux : Nat → State → Nat → List Nat → Nat → State
  | 0, s, _, _, _ => s
  | f + 1, s, x, mem, i =>
      if i < mem.length then
        let s2 := (removeEdge s (mem.getD i 0) x).2
        detachParentsAux f s2 x ((s2 x).deps ++ mem.drop ((s2 x).deps.length)) (i + 1)
      else s

/-- Model of the neighbor-detach performed by `~hipGraphNode`. -/
def detach (s : State) (x : Nat) : State :=
  let s1 := detachChildren s x
  detachParentsAux ((s1 x).deps.length + 1) s1 x ((s1 x).deps) 0

/-- A node as a standalone object, for the constructor models: the
`hipGraphNode` fields plus the id and the operation-specific parameter
payload (deep-copied payloads are value copies here). -/
structure NodeObj (α : Type) where
  id : Nat
  level : Nat
  inDegree : Nat
  outDegree : Nat
  edges : List Nat
  deps : List Nat
  params : α
  deriving DecidableEq, Repr

/-- Model of the ordinary constructor `hipGraphNode(hipGraphNodeType)`
(header lines 65-75): takes the current `nextID` counter, starts at level 0
with zero degrees and empty lists. -/
def mkNode (nextID : Nat) (params : α) : NodeObj α :=
  { id := nextID, level := 0, inDegree := 0, outDegree := 0,
    edges := [], deps := [], params := params }

/-- Model of `clone()` via the copy constructor (header lines 77-87 plus the
kind-specific copy constructors such as `hipGraphMemsetNode`'s, which deep-copy
the parameter block): `level_`, `type_`, `inDegree_`, `outDegree_` and `id_`
are copied from the original, while `edges_` and `dependencies_` are left
default-constructed, i.e. empty. -/
def cloneNode (n : NodeObj α) : NodeObj α :=
  { id := n.id, level := n.level, inDegree := n.inDegree, outDegree := n.outDegree,
    edges := [], deps := [], params := n.params }

/-- Model of `hipChildGraphNode::CreateCommand` command recording (header
lines 389-406): the root command, if produced, is pushed first, then the end
command, if produced. -/
def childCreateCommands (root endC : Option α) : List α :=
  root.toList ++ endC.toList

/-- Model of `hipChildGraphNode::EnqueueCommands` (header lines 420-433) as
the trace of enqueued commands: `commands_[0]` is enqueued only when
`commands_.size() == 1`, then every node of the child graph's level order
(each given by its own enqueue trace), then `commands_[1]` only when
`commands_.size() == 2`. -/
def childEnqueue (cmds : List α) (sub : List (List α)) : List α :=
  (if cmds.length = 1 then cmds.take 1 else []) ++
    sub.flatten ++
    (if cmds.length = 2 then cmds.drop 1 else [])

/-- Model of `hipGraphExec::GetAvailableQueue` (header line 337):
`parallelQueues_[currentQueueIndex_++]` with no bounds check and no wrap;
an out-of-range access is modelled as `none`. -/
def getAvailableQueue (qs : List α) (idx : Nat) : Option α × Nat :=
  (qs.get? idx, idx + 1)

/-- Model of `hipGraphExec::ResetQueueIndex`. -/
def resetQueueIndex (_idx : Nat) : Nat := 0

/-- The HIP error codes returned by the parameter-validation paths under
study. -/
inductive HipError where
  | success
  | invalidValue
  | invalidDeviceFunction
  | invalidSymbol
  | invalidMemcpyDirection
  | outOfMemory
  deriving DecidableEq, Repr

/-- The memcpy transfer kinds. -/
inductive MemcpyKind where
  | hostToHost
  | hostToDevice
  | deviceToHost
  | deviceToDevice
  | byDefault
  deriving DecidableEq, Repr

/-- Host or device side of a transfer. -/
inductive MemType where
  | host
  | device
  deriving DecidableEq, Repr

/-- The facts about a tracked allocation that the validators consult:
`getSize()`, the offset produced by `getMemoryObject`, and the
`getUserData().pitch_`/`height_` pair used by `ihipMemset3D_validate`. -/
structure MemObj where
  size : Nat
  offset : Nat
  pitch : Nat
  height : Nat
  deriving DecidableEq, Repr

/-- The runtime's memory-object map: `getMemoryObject(ptr)` as a lookup;
pointers are modelled as naturals with `0` standing for `nullptr`. -/
def MemEnv := Nat → Option MemObj

/-- The platform's symbol table: `getStatGlobalVar(symbol)` as a lookup
returning the device pointer and the symbol size. -/
def SymEnv := Nat → Option (Nat × Nat)

/-- The fields of `hipMemsetParams` used by the memset paths. -/
structure MemsetParams where
  dst : Nat
  value : Nat
  elementSize : Nat
  width : Nat
  height : Nat
  pitch : Nat
  deriving DecidableEq, Repr

/-- Model of `ihipMemset_validate` (`src/src/hip_memory.cpp` lines
2807-2830): zero-size fills pass, a null or untracked destination fails, and
a fill overrunning the allocation fails.  The `value`/`valueSize` arguments
are accepted and ignored, as in the source. -/
def ihipMemset_validate (env : MemEnv) (dst _value _valueSize sizeBytes : Nat) : HipError :=
  if sizeBytes = 0 then .success
  else if dst = 0 then .invalidValue
  else match env dst with
    | none => .invalidValue
    | some m => if sizeBytes > m.size - m.offset then .invalidValue else .success

/-- Model of `ihipGraphMemsetParams_validate` (`src/src/hip_memory.cpp` lines
2831-2856): rejects zero width, an element size other than 1, 2 or 4, zero
height, and a pitch-times-height footprint exceeding a tracked allocation. -/
def ihipGraphMemsetParams_validate (env : MemEnv) (ps : MemsetParams) : HipError :=
  if ps.width = 0 then .invalidValue
  else if ¬(ps.elementSize = 1 ∨ ps.elementSize = 2 ∨ ps.elementSize = 4) then .invalidValue
  else if ps.height = 0 then .invalidValue
  else match env ps.dst with
    | some m => if ps.pitch * ps.height > m.size then .invalidValue else .success
    | none => .success

/-- Model of `ihipMemset3D_validate` (`src/src/hip_memory.cpp` lines
3001-3020): an untracked pointer fails, an overrunning size fails, and when
the pitch matches the allocation's recorded pitch an over-tall extent
fails. -/
def ihipMemset3D_validate (env : MemEnv) (ptr pitch extH sizeBytes : Nat) : HipError :=
  match env ptr with
  | none => .invalidValue
  | some m =>
      if sizeBytes > m.size - m.offset then .invalidValue
      else if pitch = m.pitch ∧ extH > m.height then .invalidValue
      else .success

/-- The composite validation performed by `hipGraphMemsetNode::SetParams`
before it commits anything (header lines 1054-1069). -/
def memsetValidate (env : MemEnv) (ps : MemsetParams) : HipError :=
  let e1 := ihipGraphMemsetParams_validate env ps
  if e1 ≠ .success then e1
  else if ps.height = 1 then
    ihipMemset_validate env ps.dst ps.value ps.elementSize (ps.width * ps.elementSize)
  else
    ihipMemset3D_validate env ps.dst ps.pitch ps.height (ps.width * ps.height * 1)

/-- Model of `hipGraphMemsetNode::SetParams` (header lines 1054-1075):
validate, and only on success `memcpy` the whole parameter block over the
persisted one. -/
def memsetSetParams (env : MemEnv) (cur ps : MemsetParams) : HipError × MemsetParams :=
  let e := memsetValidate env ps
  if e ≠ .success then (e, cur) else (.success, ps)

/-- The fields of a 1D memcpy node's parameters. -/
structure Memcpy1DParams where
  dst : Nat
  src : Nat
  count : Nat
  kind : MemcpyKind
  deriving DecidableEq, Repr

/-- Model of `hipGraphMemcpyNode1D::SetParams` (header lines 805-815).
Modelled from the spec: `ValidateParams` is declared in the header but its
body lives outside `src/`, so it is abstracted as a caller-supplied validator;
the header's control flow — validate first, assign the four fields only on
success — is embedded as written. -/
def memcpy1DSetParams (validate : Memcpy1DParams → HipError) (cur ps : Memcpy1DParams) :
    HipError × Memcpy1DParams :=
  let e := validate ps
  if e ≠ .success then (e, cur) else (.success, ps)

/-- The fields of `hipKernelNodeParams` used by the kernel node model; the
marshalled argument payload is carried as an opaque list. -/
structure KernelParams where
  func : Nat
  gridDimX : Nat
  gridDimY : Nat
  gridDimZ : Nat
  blockDimX : Nat
  blockDimY : Nat
  blockDimZ : Nat
  sharedMemBytes : Nat
  args : List Nat
  deriving DecidableEq, Repr

/-- Model of `hipGraphKernelNode::SetParams` (header lines 591-686).
Modelled from the spec: `ihipValidateKernelParams` is only declared inside
`src/`, so it is abstracted as a caller-supplied validator, and `getFunc`'s
function resolution as a lookup; the argument-buffer reallocation of the
success path is modelled as the value copy it implements (allocation assumed
to succeed).  The result is the returned error together with the node's
persisted `func_` and parameter block. -/
def kernelSetParams (validate : KernelParams → HipError) (getFunc : Nat → Option Nat)
    (curFunc : Nat) (cur ps : KernelParams) : HipError × Nat × KernelParams :=
  let e := validate ps
  if e ≠ .success then (e, curFunc, cur)
  else if ps.func ≠ cur.func then
    match getFunc ps.func with
    | none => (.invalidDeviceFunction, curFunc, cur)
    | some f => (.success, f, ps)
  else (.success, curFunc, ps)

/-- Model of `ihipMemcpySymbol_validate` (`src/src/hip_memory.cpp` lines
1246-1259): fail when the symbol is unknown to the platform state, or when
`offset + sizeBytes` overruns the symbol's size. -/
def ihipMemcpySymbol_validate (env : SymEnv) (symbol sizeBytes offset : Nat) : HipError :=
  match env symbol with
  | none => .invalidSymbol
  | some dpsz => if offset + sizeBytes > dpsz.2 then .invalidValue else .success

/-- The parameters persisted by a memcpy-from-symbol node. -/
structure FromSymbolParams where
  dst : Nat
  symbol : Nat
  count : Nat
  offset : Nat
  kind : MemcpyKind
  deriving DecidableEq, Repr

/-- Model of `hipGraphMemcpyNodeFromSymbol::SetParams` (header lines
867-897): reject a destination that itself resolves as a symbol, validate the
source symbol, then check the transfer kind against whether the destination
is a tracked device allocation; the five fields are assigned only after every
check passes. -/
def fromSymbolSetParams (symEnv : SymEnv) (memEnv : MemEnv) (cur ps : FromSymbolParams) :
    HipError × FromSymbolParams :=
  if ihipMemcpySymbol_validate symEnv ps.dst ps.count ps.offset = .success then
    (.invalidValue, cur)
  else
    let e := ihipMemcpySymbol_validate symEnv ps.symbol ps.count ps.offset
    if e ≠ .success then (e, cur)
    else
      let dstMem := memEnv ps.dst
      if dstMem = none ∧ ps.kind ≠ .hostToDevice then (.invalidMemcpyDirection, cur)
      else if dstMem ≠ none ∧ ps.kind ≠ .deviceToDevice then (.invalidMemcpyDirection, cur)
      else if ps.kind = .hostToHost ∨ ps.kind = .deviceToHost then (.invalidMemcpyDirection, cur)
      else (.success, ps)

/-- The parameters persisted by a memcpy-to-symbol node. -/
structure ToSymbolParams where
  symbol : Nat
  src : Nat
  count : Nat
  offset : Nat
  kind : MemcpyKind
  deriving DecidableEq, Repr

/-- Model of `hipGraphMemcpyNodeToSymbol::SetParams` (header lines 957-993):
bounds-check `count` against the tracked source and destination allocations,
check the transfer kind's source/destination sides against where the pointers
actually live, validate the symbol, and assign only after all checks pass.
Modelled from the spec: `hip::getMemoryType` is defined outside `src/` and is
abstracted as a caller-supplied kind-to-sides map; the double
`getMemoryObject`/`FindMemObj` lookup is collapsed into one map lookup.
First the bounds predicate `dstMemory && count > size - offset`. -/
def memOverrun (m : Option MemObj) (count offset : Nat) : Bool :=
  match m with
  | some mo => decide (count > mo.size - offset)
  | none => false

/-- Model of `hipGraphMemcpyNodeToSymbol::SetParams`: the validate-then-assign
body itself (header lines 957-993). -/
def toSymbolSetParams (kindTypes : MemcpyKind → MemType × MemType) (symEnv : SymEnv)
    (memEnv : MemEnv) (cur ps : ToSymbolParams) : HipError × ToSymbolParams :=
  let srcMem := memEnv ps.src
  let dstMem := memEnv ps.symbol
  let srcType := if srcMem ≠ none then MemType.device else MemType.host
  let dstType := if dstMem ≠ none then MemType.device else MemType.host
  if memOverrun dstMem ps.count ps.offset ∨ memOverrun srcMem ps.count ps.offset then
    (.invalidValue, cur)
  else if (kindTypes ps.kind).1 ≠ srcType then (.invalidValue, cur)
  else if (kindTypes ps.kind).2 ≠ dstType then (.invalidValue, cur)
  else
    let e := ihipMemcpySymbol_validate symEnv ps.symbol ps.count ps.offset
    if e ≠ .success then (e, cur)
    else (.success, ps)

/-- An empty memory-object map: no pointer is tracked. -/
def exMemEnv : MemEnv := fun _ => none

/-- A well-formed memset parameter block used as the persisted state. -/
def exMemsetOk : MemsetParams := ⟨3, 0, 1, 4, 1, 0⟩

/-- A memset parameter block with the invalid element size 3. -/
def exMemsetBad : MemsetParams := ⟨3, 0, 3, 4, 1, 0⟩

/-- An edge path: `Steps s n u k` says node `u` is reachable from node `n` in
exactly `k` hops along `edges` lists of the heap `s`. -/
inductive Steps (s : State) : Nat → Nat → Nat → Prop where
  | refl (n : Nat) : Steps s n n 0
  | tail {n u v : Nat} {k : Nat} :
      Steps s n u k → v ∈ (s u).edges → Steps s n v (k + 1)

/-- Two heaps with the same structure everywhere (edge lists, dependency
lists and both degree counters agree); only the levels may differ. -/
def SameShape (s t : State) : Prop :=
  ∀ i, (t i).edges = (s i).edges ∧ (t i).deps = (s i).deps ∧
    (t i).inDegree = (s i).inDegree ∧ (t i).outDegree = (s i).outDegree

/-- Pointwise comparison of levels between two heaps. -/
def LevelLe (s t : State) : Prop := ∀ i, (s i).level ≤ (t i).level

/-- The transitive level invariant of the DAG: along every edge the child's
level exceeds the parent's. -/
def LevelInv (s : State) : Prop :=
  ∀ u v, v ∈ (s u).edges → (s u).level + 1 ≤ (s v).level

/-- The all-zero heap used as the starting point of concrete scenarios. -/
def emptyState : State := fun _ => ⟨0, 0, 0, [], []⟩

/-- Concrete scenario for `RemoveEdge`: node 0 at level 5 with the single
edge to node 1; node 1 at level 6 depending only on node 0. -/
def exC1 : State := fun i =>
  if i = 0 then ⟨5, 0, 1, [1], []⟩
  else if i = 1 then ⟨6, 1, 0, [], [0]⟩
  else ⟨0, 0, 0, [], []⟩

/-- Concrete scenario for the destructor: node 0 with the single edge to
node 1, both degree-consistent. -/
def exC3 : State := fun i =>
  if i = 0 then ⟨0, 0, 1, [1], []⟩
  else if i = 1 then ⟨1, 1, 0, [], [0]⟩
  else ⟨0, 0, 0, [], []⟩

/-- A concrete node object with nonzero level, degrees and neighbor lists. -/
def exNode : NodeObj Nat := ⟨7, 3, 2, 1, [4], [5, 6], 42⟩

/-- A one-node heap with a self-loop: node 0 has itself as an edge. -/
def exLoop : State := fun i =>
  if i = 0 then ⟨0, 1, 1, [0], [0]⟩ else ⟨0, 0, 0, [], []⟩

/-- The heap after `AddEdge(0, 1)` on the empty heap, used as a witness. -/
def stW : State := (addEdge 3 emptyState 0 1).getD emptyState

/-- The heap after removing and re-adding the edge `0 → 1` of `exC1`. -/
def stPair : State := (addEdge 4 ((removeEdge exC1 0 1).2) 0 1).getD emptyState

/-- Chain `0 → 1 → 2` built by `AddEdge`, giving node 2 level 2. -/
def stChainA : State := (addEdge 9 emptyState 0 1).getD emptyState

/-- Second link of the chain. -/
def stChainB : State := (addEdge 9 stChainA 1 2).getD emptyState

/-- Edge `2 → 4`: node 4 reaches level 3. -/
def stChainC : State := (addEdge 9 stChainB 2 4).getD emptyState

/-- Edge `3 → 4`: node 3 is a second, level-0 parent of node 4. -/
def stChainD : State := (addEdge 9 stChainC 3 4).getD emptyState

/-- Removing `2 → 4`: node 4 keeps level 3 because the recompute still
sees parent 2 in the dependency list. -/
def stChainE : State := (removeEdge stChainD 2 4).2

/-- The `RemoveEdge`/`AddEdge` pair on `3 → 4` applied to `stChainE`. -/
def stChainF : State := (removeEdge stChainE 3 4).2

/-- Re-adding `3 → 4` after the removal. -/
def stChainG : State := (addEdge 9 stChainF 3 4).getD emptyState

theorem uel_succ (f : Nat) (s : State) (n : Nat) :
    uel (f + 1) s n = uelL f n s ((s n).edges) := rfl

theorem uelL_nil (f n : Nat) (s : State) : uelL f n s [] = some s := rfl

theorem uelL_cons (f n : Nat) (s : State) (e : Nat) (l : List Nat) :
    uelL f n s (e :: l) = (uelStep f n s e).bind (fun t => uelL f n t l) := rfl

theorem setLevel_edges (s : State) (i v j : Nat) :
    ((setLevel s i v) j).edges = (s j).edges := by
  by_cases h : j = i <;> simp [setLevel, updNode, h]

theorem setLevel_deps (s : State) (i v j : Nat) :
    ((setLevel s i v) j).deps = (s j).deps := by
  by_cases h : j = i <;> simp [setLevel, updNode, h]

theorem setLevel_inDegree (s : State) (i v j : Nat) :
    ((setLevel s i v) j).inDegree = (s j).inDegree := by
  by_cases h : j = i <;> simp [setLevel, updNode, h]

theorem setLevel_outDegree (s : State) (i v j : Nat) :
    ((setLevel s i v) j).outDegree = (s j).outDegree := by
  by_cases h : j = i <;> simp [setLevel, updNode, h]

theorem setLevel_level (s : State) (i v j : Nat) :
    ((setLevel s i v) j).level = if j = i then v else (s j).level := by
  by_cases h : j = i <;> simp [setLevel, updNode, h]

theorem sameShape_refl (s : State) : SameShape s s := fun _ => ⟨rfl, rfl, rfl, rfl⟩

theorem sameShape_trans {s t u : State} (h1 : SameShape s t) (h2 : SameShape t u) :
    SameShape s u := by
  intro i
  obtain ⟨a1, b1, c1, d1⟩ := h1 i
  obtain ⟨a2, b2, c2, d2⟩ := h2 i
  exact ⟨a2.trans a1, b2.trans b1, c2.trans c1, d2.trans d1⟩

theorem sameShape_setLevel (s : State) (i v : Nat) : SameShape s (setLevel s i v) :=
  fun j => ⟨setLevel_edges s i v j, setLevel_deps s i v j,
    setLevel_inDegree s i v j, setLevel_outDegree s i v j⟩

theorem levelLe_refl (s : State) : LevelLe s s := fun _ => le_refl _

theorem levelLe_trans {s t u : State} (h1 : LevelLe s t) (h2 : LevelLe t u) :
    LevelLe s u := fun i => (h1 i).trans (h2 i)

theorem levelLe_setLevel (s : State) (i v : Nat) (h : (s i).level ≤ v) :
    LevelLe s (setLevel s i v) := by
  intro j
  rw [setLevel_level]
  by_cases hj : j = i <;> simp [hj]
  exact hj ▸ h

/-- Successful `UpdateEdgeLevel` runs change nothing but levels, and levels
only grow. -/
theorem uel_shape_mono (f : Nat) :
    (∀ (s t : State) (n : Nat), uel f s n = some t → SameShape s t ∧ LevelLe s t) ∧
    (∀ (l : List Nat) (n : Nat) (s t : State),
      uelL f n s l = some t → SameShape s t ∧ LevelLe s t) := by
  induction f with
  | zero =>
    constructor
    · intro s t n h
      simp [uel] at h
    · intro l n s t h
      cases l with
      | nil =>
        rw [uelL_nil] at h
        cases h
        exact ⟨sameShape_refl s, levelLe_refl s⟩
      | cons e rest =>
        rw [uelL_cons] at h
        simp [uelStep, uel] at h
  | succ g IH =>
    have hU : ∀ (s t : State) (n : Nat),
        uel (g + 1) s n = some t → SameShape s t ∧ LevelLe s t := by
      intro s t n h
      rw [uel_succ] at h
      exact IH.2 _ _ _ _ h
    refine ⟨hU, ?_⟩
    intro l
    induction l with
    | nil =>
      intro n s t h
      rw [uelL_nil] at h
      cases h
      exact ⟨sameShape_refl s, levelLe_refl s⟩
    | cons e rest IHl =>
      intro n s t h
      rw [uelL_cons] at h
      obtain ⟨s2, h1, h2⟩ := Option.bind_eq_some.mp h
      have hstep := hU _ _ _ h1
      have hset1 := sameShape_setLevel s e (max ((s e).level) ((s n).level + 1))
      have hset2 := levelLe_setLevel s e (max ((s e).level) ((s n).level + 1)) (le_max_left _ _)
      have hrest := IHl n s2 t h2
      exact ⟨sameShape_trans (sameShape_trans hset1 hstep.1) hrest.1,
        levelLe_trans (levelLe_trans hset2 hstep.2) hrest.2⟩

theorem steps_congr {s t : State} (h : ∀ i, (t i).edges = (s i).edges)
    {a b k : Nat} (hp : Steps s a b k) : Steps t a b k := by
  induction hp with
  | refl => exact Steps.refl _
  | tail _ hm ih => exact Steps.tail ih ((h _).symm ▸ hm)

theorem steps_mono {s t : State} (h : ∀ i x, x ∈ (s i).edges → x ∈ (t i).edges)
    {a b k : Nat} (hp : Steps s a b k) : Steps t a b k := by
  induction hp with
  | refl => exact Steps.refl _
  | tail _ hm ih => exact Steps.tail ih (h _ _ hm)

theorem steps_trans {s : State} {a b c j k : Nat}
    (h1 : Steps s a b j) (h2 : Steps s b c k) : Steps s a c (j + k) := by
  induction h2 with
  | refl => exact h1
  | tail _ hm ih => exact Steps.tail ih hm

theorem steps_zero {s : State} {a b : Nat} (h : Steps s a b 0) : b = a := by
  cases h
  rfl

theorem steps_head {s : State} {n e u k : Nat} (he : e ∈ (s n).edges)
    (h : Steps s e u k) : Steps s n u (k + 1) := by
  induction h with
  | refl => exact Steps.tail (Steps.refl n) he
  | tail _ hm ih => exact Steps.tail ih hm

theorem steps_succ_head {s : State} {n u k : Nat} (h : Steps s n u (k + 1)) :
    ∃ e ∈ (s n).edges, Steps s e u k := by
  induction k generalizing u with
  | zero =>
    cases h with
    | tail hp hm =>
      obtain rfl := steps_zero hp
      exact ⟨u, hm, Steps.refl u⟩
  | succ j ih =>
    cases h with
    | tail hp hm =>
      obtain ⟨e, he, hstep⟩ := ih hp
      exact ⟨e, he, Steps.tail hstep hm⟩

theorem steps_shorten {s : State} {n u k : Nat} (h : Steps s n u k) :
    ∀ j ≤ k, ∃ w, Steps s n w j := by
  induction h with
  | refl => exact fun j hj => ⟨_, Nat.le_zero.mp hj ▸ Steps.refl _⟩
  | tail hp hm ih =>
    intro j hj
    rcases Nat.lt_or_ge j (_ + 1) with hlt | hge
    · exact ih j (Nat.lt_succ_iff.mp hlt)
    · obtain rfl := Nat.le_antisymm hj hge
      exact ⟨_, Steps.tail hp hm⟩

theorem steps_iterate {s : State} {u b : Nat} (h : Steps s u u b) :
    ∀ m, Steps s u u (m * b) := by
  intro m
  induction m with
  | zero => simpa using Steps.refl u
  | succ j ih => exact Nat.succ_mul j b ▸ steps_trans ih h

/-- A successful `UpdateEdgeLevel` run with fuel `f` admits no edge path of
length `f` or more from its start node. -/
theorem uel_bound_paths (f : Nat) :
    (∀ (s t : State) (n : Nat), uel f s n = some t →
      ∀ w k, Steps s n w k → k < f) ∧
    (∀ (l : List Nat) (n : Nat) (s t : State), uelL f n s l = some t →
      ∀ e ∈ l, ∀ w k, Steps s e w k → k < f) := by
  induction f with
  | zero =>
    constructor
    · intro s t n h
      simp [uel] at h
    · intro l n s t h e he
      cases l with
      | nil => cases he
      | cons e0 rest =>
        rw [uelL_cons] at h
        simp [uelStep, uel] at h
  | succ g IH =>
    have hU : ∀ (s t : State) (n : Nat), uel (g + 1) s n = some t →
        ∀ w k, Steps s n w k → k < g + 1 := by
      intro s t n h w k hp
      rw [uel_succ] at h
      cases hp with
      | refl => exact Nat.succ_pos g
      | tail hsteps hm =>
        rename_i u j
        have := steps_succ_head (Steps.tail hsteps hm)
        obtain ⟨e, he, hstep⟩ := this
        exact Nat.succ_lt_succ (IH.2 _ _ _ _ h e he w _ hstep)
    refine ⟨hU, ?_⟩
    intro l
    induction l with
    | nil =>
      intro n s t h e he
      cases he
    | cons e0 rest IHl =>
      intro n s t h e he w k hp
      rw [uelL_cons] at h
      obtain ⟨s2, h1, h2⟩ := Option.bind_eq_some.mp h
      have hshape1 : ∀ i, ((setLevel s e0 (max ((s e0).level) ((s n).level + 1))) i).edges
          = (s i).edges := fun i => setLevel_edges s e0 _ i
      rcases List.mem_cons.mp he with rfl | hrest
      · exact hU _ _ _ h1 w k (steps_congr (fun i => hshape1 i) hp)
      · have hshape2 := (uel_shape_mono (g + 1)).1 _ _ _ h1
        have hedges2 : ∀ i, (s2 i).edges = (s i).edges := by
          intro i
          exact ((hshape2.1 i).1).trans (hshape1 i)
        exact IHl n s2 t h2 e hrest w k (steps_congr (fun i => hedges2 i) hp)

/-- An edge path as long as the fuel forces `UpdateEdgeLevel` to run out. -/
theorem uel_none_of_path {s : State} {n w f : Nat} (hp : Steps s n w f) :
    uel f s n = none := by
  cases h : uel f s n with
  | none => rfl
  | some t => exact absurd ((uel_bound_paths f).1 s t n h w f hp) (lt_irrefl f)

/-- A cycle reachable from `n` starves every amount of fuel: the recursion is
unbounded. -/
theorem uel_cycle_none {s : State} {n u a b : Nat}
    (h1 : Steps s n u a) (h2 : Steps s u u b) (hb : 1 ≤ b) :
    ∀ f, uel f s n = none := by
  intro f
  have hcyc : Steps s n u (a + f * b) := steps_trans h1 (steps_iterate h2 f)
  have hge : f ≤ a + f * b := by
    calc f = f * 1 := (Nat.mul_one f).symm
    _ ≤ f * b := Nat.mul_le_mul_left f hb
    _ ≤ a + f * b := Nat.le_add_left _ _
  obtain ⟨w, hw⟩ := steps_shorten hcyc f hge
  exact uel_none_of_path hw

/-- Whatever a successful `UpdateEdgeLevel` run modifies is reachable from
the start node by at least one edge hop. -/
theorem uel_untouched (f : Nat) :
    (∀ (s t : State) (n : Nat), uel f s n = some t →
      ∀ i, t i ≠ s i → ∃ k, 1 ≤ k ∧ Steps s n i k) ∧
    (∀ (l : List Nat) (n : Nat) (s t : State), uelL f n s l = some t →
      ∀ i, t i ≠ s i → ∃ e ∈ l, ∃ k, Steps s e i k) := by
  induction f with
  | zero =>
    constructor
    · intro s t n h
      simp [uel] at h
    · intro l n s t h i hi
      cases l with
      | nil =>
        rw [uelL_nil] at h
        cases h
        exact absurd rfl hi
      | cons e rest =>
        rw [uelL_cons] at h
        simp [uelStep, uel] at h
  | succ g IH =>
    have hU : ∀ (s t : State) (n : Nat), uel (g + 1) s n = some t →
        ∀ i, t i ≠ s i → ∃ k, 1 ≤ k ∧ Steps s n i k := by
      intro s t n h i hi
      rw [uel_succ] at h
      obtain ⟨e, he, k, hk⟩ := IH.2 _ _ _ _ h i hi
      exact ⟨k + 1, Nat.succ_le_succ (Nat.zero_le k), steps_head he hk⟩
    refine ⟨hU, ?_⟩
    intro l
    induction l with
    | nil =>
      intro n s t h i hi
      rw [uelL_nil] at h
      cases h
      exact absurd rfl hi
    | cons e rest IHl =>
      intro n s t h i hi
      rw [uelL_cons] at h
      obtain ⟨s2, h1, h2⟩ := Option.bind_eq_some.mp h
      unfold uelStep at h1
      have hedg1 : ∀ j, ((setLevel s e (max ((s e).level) ((s n).level + 1))) j).edges
          = (s j).edges := fun j => setLevel_edges s e _ j
      by_cases hti : t i = s2 i
      · by_cases h2i : s2 i = setLevel s e (max ((s e).level) ((s n).level + 1)) i
        · have hne : setLevel s e (max ((s e).level) ((s n).level + 1)) i ≠ s i := by
            intro hset
            exact hi (hti.trans (h2i.trans hset))
          have hie : i = e := by
            by_contra hne2
            exact hne (by simp [setLevel, updNode, hne2])
          refine ⟨e, List.mem_cons_self e rest, 0, ?_⟩
          rw [hie]
          exact Steps.refl e
        · obtain ⟨k, _, hk⟩ := hU _ _ _ h1 i h2i
          exact ⟨e, List.mem_cons_self e rest, k, steps_congr (fun j => (hedg1 j).symm) hk⟩
      · have hsh2 := ((uel_shape_mono (g + 1)).1 _ _ _ h1).1
        have hedg2 : ∀ j, (s2 j).edges = (s j).edges :=
          fun j => ((hsh2 j).1).trans (hedg1 j)
        obtain ⟨e2, he2, k, hk⟩ := IHl n s2 t h2 i hti
        exact ⟨e2, List.mem_cons_of_mem e he2, k, steps_congr (fun j => (hedg2 j).symm) hk⟩

/-- The start node's own level is unchanged by a successful
`UpdateEdgeLevel` run: a change would require a cycle back to it, which
starves any fuel. -/
theorem uel_root_level {f : Nat} {s t : State} {n : Nat} (h : uel f s n = some t) :
    (t n).level = (s n).level := by
  by_contra hne
  have hnei : t n ≠ s n := fun he => hne (congrArg GNode.level he)
  obtain ⟨k, hk1, hk⟩ := (uel_untouched f).1 s t n h n hnei
  have hnone := uel_cycle_none (Steps.refl n) hk hk1 f
  rw [h] at hnone
  exact Option.noConfusion hnone

/-- After a successful pass over the loop list with the root's level
unchanged, every member of the list sits strictly above the root. -/
theorem uelL_establish (f : Nat) (l : List Nat) :
    ∀ (n : Nat) (s t : State), uelL f n s l = some t → (t n).level = (s n).level →
      ∀ w ∈ l, (s n).level + 1 ≤ (t w).level := by
  induction l with
  | nil =>
    intro n s t _ _ w hw
    cases hw
  | cons e rest IHl =>
    intro n s t h hroot w hw
    rw [uelL_cons] at h
    obtain ⟨s2, h1, h2⟩ := Option.bind_eq_some.mp h
    unfold uelStep at h1
    have hmono1 := ((uel_shape_mono f).1 _ _ _ h1).2
    have hmono2 := ((uel_shape_mono f).2 rest n s2 t h2).2
    by_cases hen : e = n
    · exfalso
      subst hen
      have h1lvl : ((setLevel s e (max ((s e).level) ((s e).level + 1))) e).level
          = (s e).level + 1 := by
        rw [setLevel_level, if_pos rfl, max_eq_right (Nat.le_succ _)]
      have hchain : (s e).level + 1 ≤ (t e).level := by
        calc (s e).level + 1 = _ := h1lvl.symm
        _ ≤ (s2 e).level := hmono1 e
        _ ≤ (t e).level := hmono2 e
      rw [hroot] at hchain
      omega
    · have hs1n : ((setLevel s e (max ((s e).level) ((s n).level + 1))) n).level
          = (s n).level := by
        rw [setLevel_level, if_neg (fun hh => hen hh.symm)]
      rcases List.mem_cons.mp hw with rfl | hwrest
      · have hs1w : (s n).level + 1
            ≤ ((setLevel s w (max ((s w).level) ((s n).level + 1))) w).level := by
          rw [setLevel_level, if_pos rfl]
          exact le_max_right _ _
        calc (s n).level + 1 ≤ _ := hs1w
        _ ≤ (s2 w).level := hmono1 w
        _ ≤ (t w).level := hmono2 w
      · have hsand : (s2 n).level = (s n).level := by
          have l1 : (s n).level ≤ (s2 n).level := hs1n ▸ hmono1 n
          have l2 : (s2 n).level ≤ (t n).level := hmono2 n
          omega
        have := IHl n s2 t h2 (hroot.trans hsand.symm) w hwrest
        rw [hsand] at this
        exact this

/-- Establishment: after a successful `UpdateEdgeLevel`, every direct child
of the start node sits strictly above it. -/
theorem uel_establish {f : Nat} {s t : State} {n : Nat} (h : uel f s n = some t) :
    ∀ w ∈ (s n).edges, (t n).level + 1 ≤ (t w).level := by
  cases f with
  | zero => simp [uel] at h
  | succ g =>
    have hroot := uel_root_level h
    rw [uel_succ] at h
    intro w hw
    have := uelL_establish g ((s n).edges) n s t h hroot w hw
    rw [hroot]
    exact this

/-- Preservation: a single-edge level constraint that holds before a
successful `UpdateEdgeLevel` run still holds after it — any node the run
raises has its whole cone re-raised right away. -/
theorem uel_preserve (f : Nat) :
    (∀ (s t : State) (n : Nat), uel f s n = some t →
      ∀ u v, v ∈ (s u).edges → (s u).level + 1 ≤ (s v).level →
        (t u).level + 1 ≤ (t v).level) ∧
    (∀ (l : List Nat) (n : Nat) (s t : State), uelL f n s l = some t →
      ∀ u v, v ∈ (s u).edges → (s u).level + 1 ≤ (s v).level →
        (t u).level + 1 ≤ (t v).level) := by
  induction f with
  | zero =>
    constructor
    · intro s t n h
      simp [uel] at h
    · intro l n s t h u v hv huv
      cases l with
      | nil =>
        rw [uelL_nil] at h
        cases h
        exact huv
      | cons e rest =>
        rw [uelL_cons] at h
        simp [uelStep, uel] at h
  | succ g IH =>
    have hU : ∀ (s t : State) (n : Nat), uel (g + 1) s n = some t →
        ∀ u v, v ∈ (s u).edges → (s u).level + 1 ≤ (s v).level →
          (t u).level + 1 ≤ (t v).level := by
      intro s t n h u v hv huv
      rw [uel_succ] at h
      exact IH.2 _ _ _ _ h u v hv huv
    refine ⟨hU, ?_⟩
    intro l
    induction l with
    | nil =>
      intro n s t h u v hv huv
      rw [uelL_nil] at h
      cases h
      exact huv
    | cons e rest IHl =>
      intro n s t h u v hv huv
      rw [uelL_cons] at h
      obtain ⟨s2, h1, h2⟩ := Option.bind_eq_some.mp h
      unfold uelStep at h1
      have hedg1 : ∀ j, ((setLevel s e (max ((s e).level) ((s n).level + 1))) j).edges
          = (s j).edges := fun j => setLevel_edges s e _ j
      have hsh2 := ((uel_shape_mono (g + 1)).1 _ _ _ h1).1
      have hedg2 : ∀ j, (s2 j).edges = (s j).edges :=
        fun j => ((hsh2 j).1).trans (hedg1 j)
      by_cases hue : u = e
      · subst hue
        have hv1 : v ∈ ((setLevel s u (max ((s u).level) ((s n).level + 1))) u).edges := by
          rw [hedg1 u]
          exact hv
        have hs2c := uel_establish h1 v hv1
        have hv2 : v ∈ (s2 u).edges := by
          rw [hedg2 u]
          exact hv
        exact IHl n s2 t h2 u v hv2 hs2c
      · have hc1 : ((setLevel s e (max ((s e).level) ((s n).level + 1))) u).level + 1
            ≤ ((setLevel s e (max ((s e).level) ((s n).level + 1))) v).level := by
          rw [setLevel_level, setLevel_level, if_neg hue]
          by_cases hve : v = e
          · rw [if_pos hve]
            subst hve
            exact le_trans huv (le_max_left _ _)
          · rw [if_neg hve]
            exact huv
        have hv1 : v ∈ ((setLevel s e (max ((s e).level) ((s n).level + 1))) u).edges := by
          rw [hedg1 u]
          exact hv
        have hc2 := hU _ _ _ h1 u v hv1 hc1
        have hv2 : v ∈ (s2 u).edges := by
          rw [hedg2 u]
          exact hv
        exact IHl n s2 t h2 u v hv2 hc2

/-- The re-established invariant: after a successful `UpdateEdgeLevel` from
`n`, every edge in the cone reachable from `n` satisfies
`child.level ≥ parent.level + 1`. -/
theorem uel_inv (f : Nat) :
    (∀ (s t : State) (n : Nat), uel f s n = some t →
      ∀ u v k, Steps s n u k → v ∈ (s u).edges → (t u).level + 1 ≤ (t v).level) ∧
    (∀ (l : List Nat) (n : Nat) (s t : State), uelL f n s l = some t →
      ∀ e ∈ l, ∀ u v k, Steps s e u k → v ∈ (s u).edges →
        (t u).level + 1 ≤ (t v).level) := by
  induction f with
  | zero =>
    constructor
    · intro s t n h
      simp [uel] at h
    · intro l n s t h e he
      cases l with
      | nil => cases he
      | cons e0 rest =>
        rw [uelL_cons] at h
        simp [uelStep, uel] at h
  | succ g IH =>
    have hU : ∀ (s t : State) (n : Nat), uel (g + 1) s n = some t →
        ∀ u v k, Steps s n u k → v ∈ (s u).edges → (t u).level + 1 ≤ (t v).level := by
      intro s t n h u v k hsteps hv
      cases k with
      | zero =>
        obtain rfl := steps_zero hsteps
        exact uel_establish h v hv
      | succ j =>
        obtain ⟨e, he, hstep⟩ := steps_succ_head hsteps
        rw [uel_succ] at h
        exact IH.2 _ _ _ _ h e he u v j hstep hv
    refine ⟨hU, ?_⟩
    intro l
    induction l with
    | nil =>
      intro n s t h e he
      cases he
    | cons e0 rest IHl =>
      intro n s t h e he u v k hsteps hv
      rw [uelL_cons] at h
      obtain ⟨s2, h1, h2⟩ := Option.bind_eq_some.mp h
      unfold uelStep at h1
      have hedg1 : ∀ j, ((setLevel s e0 (max ((s e0).level) ((s n).level + 1))) j).edges
          = (s j).edges := fun j => setLevel_edges s e0 _ j
      have hsh2 := ((uel_shape_mono (g + 1)).1 _ _ _ h1).1
      have hedg2 : ∀ j, (s2 j).edges = (s j).edges :=
        fun j => ((hsh2 j).1).trans (hedg1 j)
      rcases List.mem_cons.mp he with rfl | hrest
      · have hsteps1 := steps_congr (fun j => hedg1 j) hsteps
        have hv1 : v ∈ ((setLevel s e (max ((s e).level) ((s n).level + 1))) u).edges := by
          rw [hedg1 u]
          exact hv
        have hs2c := hU _ _ _ h1 u v k hsteps1 hv1
        have hv2 : v ∈ (s2 u).edges := by
          rw [hedg2 u]
          exact hv
        exact (uel_preserve (g + 1)).2 rest n s2 t h2 u v hv2 hs2c
      · have hsteps2 := steps_congr (fun j => hedg2 j) hsteps
        have hv2 : v ∈ (s2 u).edges := by
          rw [hedg2 u]
          exact hv
        exact IHl n s2 t h2 e hrest u v k hsteps2 hv2

theorem setLevel_id (s : State) (i : Nat) : setLevel s i ((s i).level) = s := by
  funext j
  by_cases h : j = i
  · subst h
    simp [setLevel, updNode]
  · simp [setLevel, updNode, h]

/-- On a heap already satisfying the transitive level invariant, a successful
`UpdateEdgeLevel` run changes nothing at all. -/
theorem uel_noop (f : Nat) :
    (∀ (s t : State) (n : Nat), uel f s n = some t → LevelInv s → t = s) ∧
    (∀ (l : List Nat) (n : Nat) (s t : State), uelL f n s l = some t → LevelInv s →
      (∀ e ∈ l, e ∈ (s n).edges) → t = s) := by
  induction f with
  | zero =>
    constructor
    · intro s t n h
      simp [uel] at h
    · intro l n s t h _ _
      cases l with
      | nil =>
        rw [uelL_nil] at h
        cases h
        rfl
      | cons e rest =>
        rw [uelL_cons] at h
        simp [uelStep, uel] at h
  | succ g IH =>
    have hU : ∀ (s t : State) (n : Nat), uel (g + 1) s n = some t → LevelInv s →
        t = s := by
      intro s t n h hinv
      rw [uel_succ] at h
      exact IH.2 _ _ _ _ h hinv (fun e he => he)
    refine ⟨hU, ?_⟩
    intro l
    induction l with
    | nil =>
      intro n s t h _ _
      rw [uelL_nil] at h
      cases h
      rfl
    | cons e rest IHl =>
      intro n s t h hinv hsub
      rw [uelL_cons] at h
      obtain ⟨s2, h1, h2⟩ := Option.bind_eq_some.mp h
      unfold uelStep at h1
      have he : e ∈ (s n).edges := hsub e (List.mem_cons_self e rest)
      have hmax : max ((s e).level) ((s n).level + 1) = (s e).level :=
        max_eq_left (hinv n e he)
      rw [hmax, setLevel_id] at h1
      have hs2 : s2 = s := hU _ _ _ h1 hinv
      subst hs2
      exact IHl n s2 t h2 hinv (fun x hx => hsub x (List.mem_cons_of_mem e hx))

theorem addDependency_edges (s : State) (c p j : Nat) :
    ((addDependency s c p) j).edges = (s j).edges := by
  by_cases h : j = c <;> simp [addDependency, updNode, h]

theorem addDependency_level (s : State) (c p j : Nat) :
    ((addDependency s c p) j).level = (s j).level := by
  by_cases h : j = c <;> simp [addDependency, updNode, h]

theorem addDependency_inDegree (s : State) (c p j : Nat) :
    ((addDependency s c p) j).inDegree = (s j).inDegree := by
  by_cases h : j = c <;> simp [addDependency, updNode, h]

theorem addDependency_outDegree (s : State) (c p j : Nat) :
    ((addDependency s c p) j).outDegree = (s j).outDegree := by
  by_cases h : j = c <;> simp [addDependency, updNode, h]

theorem addDependency_deps (s : State) (c p j : Nat) :
    ((addDependency s c p) j).deps
      = if j = c then (s j).deps ++ [p] else (s j).deps := by
  by_cases h : j = c <;> simp [addDependency, updNode, h]

/-- The postcondition of `AddEdge` for an abstract mid-state `S3` (the heap
just before `UpdateEdgeLevel` runs, described field by field). -/
theorem addEdge_post_core (fuel : Nat) (s S3 s4 : State) (p c : Nat)
    (hS3edges : ∀ j, (S3 j).edges = if j = p then (s j).edges ++ [c] else (s j).edges)
    (hS3deps : ∀ j, (S3 j).deps = (s j).deps)
    (hS3out : ∀ j, (S3 j).outDegree
      = if j = p then (s j).outDegree + 1 else (s j).outDegree)
    (hS3in : ∀ j, (S3 j).inDegree
      = if j = c then (s j).inDegree + 1 else (s j).inDegree)
    (hS3lvl : ∀ j, (S3 j).level
      = if j = c then max ((s c).level) ((s p).level + 1) else (s j).level)
    (h4 : uel fuel S3 c = some s4)
    (hop : (s p).outDegree = (s p).edges.length)
    (hic : (s c).inDegree = (s c).deps.length) :
    c ∈ ((addDependency s4 c p) p).edges ∧
    p ∈ ((addDependency s4 c p) c).deps ∧
    ((addDependency s4 c p) p).level + 1 ≤ ((addDependency s4 c p) c).level ∧
    ((addDependency s4 c p) p).outDegree = ((addDependency s4 c p) p).edges.length ∧
    ((addDependency s4 c p) c).inDegree = ((addDependency s4 c p) c).deps.length ∧
    (∀ u v k, Steps (addDependency s4 c p) c u k →
      v ∈ ((addDependency s4 c p) u).edges →
      ((addDependency s4 c p) u).level + 1 ≤ ((addDependency s4 c p) v).level) := by
  have hsm := (uel_shape_mono fuel).1 S3 s4 c h4
  have hedg4 : ∀ j, (s4 j).edges = (S3 j).edges := fun j => (hsm.1 j).1
  have hdep4 : ∀ j, (s4 j).deps = (S3 j).deps := fun j => (hsm.1 j).2.1
  have hin4 : ∀ j, (s4 j).inDegree = (S3 j).inDegree := fun j => (hsm.1 j).2.2.1
  have hout4 : ∀ j, (s4 j).outDegree = (S3 j).outDegree := fun j => (hsm.1 j).2.2.2
  have hpc : p ≠ c := by
    intro hpc
    subst hpc
    have hcc : p ∈ (S3 p).edges := by
      rw [hS3edges p, if_pos rfl]
      exact List.mem_append_right _ (List.mem_singleton.mpr rfl)
    have hnone := uel_cycle_none (Steps.refl p) (Steps.tail (Steps.refl p) hcc)
      (le_refl 1) fuel
    rw [h4] at hnone
    exact Option.noConfusion hnone
  have hedgec : c ∈ (S3 p).edges := by
    rw [hS3edges p, if_pos rfl]
    exact List.mem_append_right _ (List.mem_singleton.mpr rfl)
  have hp4 : (s4 p).level = (S3 p).level := by
    by_contra hne
    have hnep : s4 p ≠ S3 p := fun he => hne (congrArg GNode.level he)
    obtain ⟨k, hk1, hk⟩ := (uel_untouched fuel).1 S3 s4 c h4 p hnep
    have hcyc : Steps S3 c c (k + 1) := Steps.tail hk hedgec
    have hnone := uel_cycle_none (Steps.refl c) hcyc (Nat.succ_le_succ (Nat.zero_le k)) fuel
    rw [h4] at hnone
    exact Option.noConfusion hnone
  refine ⟨?_, ?_, ?_, ?_, ?_, ?_⟩
  · rw [addDependency_edges, hedg4, hS3edges, if_pos rfl]
    exact List.mem_append_right _ (List.mem_singleton.mpr rfl)
  · rw [addDependency_deps, if_pos rfl]
    exact List.mem_append_right _ (List.mem_singleton.mpr rfl)
  · rw [addDependency_level, addDependency_level, hp4, hS3lvl p, if_neg hpc]
    have h1 : (S3 c).level ≤ (s4 c).level := hsm.2 c
    have h2 : (S3 c).level = max ((s c).level) ((s p).level + 1) := by
      rw [hS3lvl c, if_pos rfl]
    have h3 : (s p).level + 1 ≤ (S3 c).level := h2 ▸ le_max_right _ _
    omega
  · rw [addDependency_outDegree, addDependency_edges, hout4, hedg4, hS3out, hS3edges,
      if_pos rfl, if_pos rfl, List.length_append, hop]
    rfl
  · rw [addDependency_inDegree, addDependency_deps, hin4, hdep4, hS3in,
      if_pos rfl, if_pos rfl, hS3deps, List.length_append, hic]
    rfl
  · intro u v k hsteps hv
    have hedgt : ∀ j, ((addDependency s4 c p) j).edges = (S3 j).edges :=
      fun j => (addDependency_edges s4 c p j).trans (hedg4 j)
    have hsteps3 : Steps S3 c u k := steps_congr (fun j => (hedgt j).symm) hsteps
    have hv3 : v ∈ (S3 u).edges := (hedgt u) ▸ hv
    have := (uel_inv fuel).1 S3 s4 c h4 u v k hsteps3 hv3
    rw [addDependency_level, addDependency_level]
    exact this

/-- C2: after a completed `AddEdge(p, c)`: `c` is in `p`'s edge list, `p` is
in `c`'s dependency list, `c.level ≥ p.level + 1`, the degree/list-length
equalities at `p` and `c` are preserved, and the relation
`level(child) ≥ level(parent) + 1` is re-established for every edge reachable
from `c`. -/
theorem addEdge_post (fuel : Nat) (s : State) (p c : Nat) (t : State)
    (hsucc : addEdge fuel s p c = some t)
    (hop : (s p).outDegree = (s p).edges.length)
    (hic : (s c).inDegree = (s c).deps.length) :
    c ∈ (t p).edges ∧ p ∈ (t c).deps ∧
    (t p).level + 1 ≤ (t c).level ∧
    (t p).outDegree = (t p).edges.length ∧
    (t c).inDegree = (t c).deps.length ∧
    (∀ u v k, Steps t c u k → v ∈ (t u).edges → (t u).level + 1 ≤ (t v).level) := by
  obtain ⟨s4, h4, ht⟩ := Option.map_eq_some'.mp hsucc
  subst ht
  refine addEdge_post_core fuel s _ s4 p c ?_ ?_ ?_ ?_ ?_ h4 hop hic
  · intro j
    by_cases hjp : j = p
    · subst hjp
      by_cases hjc : j = c <;>
        simp [setLevel, updNode, apply_ite GNode.edges, hjc]
    · by_cases hjc : j = c <;>
        simp [setLevel, updNode, apply_ite GNode.edges, hjp, hjc]
  · intro j
    by_cases hjp : j = p
    · subst hjp
      by_cases hjc : j = c <;>
        simp [setLevel, updNode, apply_ite GNode.deps, hjc]
    · by_cases hjc : j = c <;>
        simp [setLevel, updNode, apply_ite GNode.deps, hjp, hjc]
  · intro j
    by_cases hjp : j = p
    · subst hjp
      by_cases hjc : j = c <;>
        simp [setLevel, updNode, apply_ite GNode.outDegree, hjc]
    · by_cases hjc : j = c <;>
        simp [setLevel, updNode, apply_ite GNode.outDegree, hjp, hjc]
  · intro j
    by_cases hjc : j = c
    · subst hjc
      by_cases hjp : j = p <;>
        simp [setLevel, updNode, apply_ite GNode.inDegree, hjp]
    · by_cases hjp : j = p <;>
        simp [setLevel, updNode, apply_ite GNode.inDegree, hjp, hjc]
  · intro j
    by_cases hjc : j = c
    · subst hjc
      by_cases hjp : j = p <;>
        simp [setLevel, updNode, apply_ite GNode.level, hjp]
    · by_cases hjp : j = p <;>
        simp [setLevel, updNode, apply_ite GNode.level, hjp, hjc]

/-- Witness for `addEdge_post`: adding the edge `0 → 1` to the empty heap. -/
theorem addEdge_post_witness :
    (addEdge 3 emptyState 0 1 = some stW) ∧
    ((emptyState 0).outDegree = (emptyState 0).edges.length) ∧
    ((emptyState 1).inDegree = (emptyState 1).deps.length) ∧
    (1 ∈ (stW 0).edges ∧ 0 ∈ (stW 1).deps ∧
      (stW 0).level + 1 ≤ (stW 1).level ∧
      (stW 0).outDegree = (stW 0).edges.length ∧
      (stW 1).inDegree = (stW 1).deps.length ∧
      (∀ u v k, Steps stW 1 u k → v ∈ (stW u).edges →
        (stW u).level + 1 ≤ (stW v).level)) :=
  ⟨rfl, rfl, rfl, addEdge_post 3 emptyState 0 1 stW rfl rfl rfl⟩

/-- Fuel above the start node's rank suffices when some rank function
decreases along every edge (a topological certificate of acyclicity). -/
theorem uel_rank (f : Nat) :
    (∀ (s : State) (n : Nat) (rk : Nat → Nat),
      (∀ u v, v ∈ (s u).edges → rk v < rk u) → rk n < f →
        ∃ t, uel f s n = some t) ∧
    (∀ (l : List Nat) (n : Nat) (s : State) (rk : Nat → Nat),
      (∀ u v, v ∈ (s u).edges → rk v < rk u) → (∀ e ∈ l, rk e < f) →
        ∃ t, uelL f n s l = some t) := by
  induction f with
  | zero =>
    constructor
    · intro s n rk _ h
      exact absurd h (Nat.not_lt_zero _)
    · intro l n s rk _ hl
      cases l with
      | nil => exact ⟨s, rfl⟩
      | cons e rest => exact absurd (hl e (List.mem_cons_self e rest)) (Nat.not_lt_zero _)
  | succ g IH =>
    have hU : ∀ (s : State) (n : Nat) (rk : Nat → Nat),
        (∀ u v, v ∈ (s u).edges → rk v < rk u) → rk n < g + 1 →
          ∃ t, uel (g + 1) s n = some t := by
      intro s n rk hrk hn
      simp only [uel_succ]
      exact IH.2 ((s n).edges) n s rk hrk
        (fun e he => lt_of_lt_of_le (hrk n e he) (Nat.lt_succ_iff.mp hn))
    refine ⟨hU, ?_⟩
    intro l
    induction l with
    | nil =>
      intro n s rk _ _
      exact ⟨s, rfl⟩
    | cons e rest IHl =>
      intro n s rk hrk hl
      have hrk1 : ∀ u v,
          v ∈ ((setLevel s e (max ((s e).level) ((s n).level + 1))) u).edges →
            rk v < rk u := by
        intro u v hv
        rw [setLevel_edges] at hv
        exact hrk u v hv
      obtain ⟨s2, h2⟩ := hU _ e rk hrk1 (hl e (List.mem_cons_self e rest))
      have hsh := ((uel_shape_mono (g + 1)).1 _ _ _ h2).1
      have hrk2 : ∀ u v, v ∈ (s2 u).edges → rk v < rk u := by
        intro u v hv
        rw [(hsh u).1, setLevel_edges] at hv
        exact hrk u v hv
      obtain ⟨t, h3⟩ := IHl n s2 rk hrk2 (fun x hx => hl x (List.mem_cons_of_mem _ hx))
      refine ⟨t, ?_⟩
      rw [uelL_cons]
      show (uel (g + 1) _ e).bind _ = some t
      rw [h2]
      exact h3

/-- C9: the recursive level propagation of `AddEdge` terminates on every
graph admitting a rank decreasing along edges (every acyclic graph); a cycle
reachable from the start node starves every amount of fuel, and `AddEdge`
itself performs no cycle check — closing a cycle (`c` already reaches `p`)
makes the propagation run forever, fuel notwithstanding. -/
theorem updateEdgeLevel_termination :
    (∀ (s : State) (n : Nat) (rk : Nat → Nat),
      (∀ u v, v ∈ (s u).edges → rk v < rk u) →
        ∃ fuel t, uel fuel s n = some t) ∧
    (∀ (s : State) (n u a b : Nat), Steps s n u a → Steps s u u b → 1 ≤ b →
      ∀ fuel, uel fuel s n = none) ∧
    (∀ (fuel : Nat) (s : State) (p c k : Nat), Steps s c p k →
      addEdge fuel s p c = none) := by
  refine ⟨?_, ?_, ?_⟩
  · intro s n rk hrk
    obtain ⟨t, ht⟩ := (uel_rank (rk n + 1)).1 s n rk hrk (Nat.lt_succ_self _)
    exact ⟨rk n + 1, t, ht⟩
  · intro s n u a b h1 h2 hb fuel
    exact uel_cycle_none h1 h2 hb fuel
  · intro fuel s p c k hsteps
    have key : ∀ (S3 : State), (∀ i x, x ∈ (s i).edges → x ∈ (S3 i).edges) →
        c ∈ (S3 p).edges →
        (uel fuel S3 c).map (fun s4 => addDependency s4 c p) = none := by
      intro S3 hmono hcp
      have hsteps3 : Steps S3 c p k := steps_mono hmono hsteps
      have hcyc : Steps S3 c c (k + 1) := Steps.tail hsteps3 hcp
      rw [uel_cycle_none (Steps.refl c) hcyc (Nat.succ_le_succ (Nat.zero_le k)) fuel]
      rfl
    refine key _ ?_ ?_
    · intro i x hx
      by_cases hip : i = p
      · subst hip
        by_cases hic : i = c
        · simp [setLevel, updNode, apply_ite GNode.edges, hic]
          exact Or.inl (hic ▸ hx)
        · simp [setLevel, updNode, apply_ite GNode.edges, hic, hx]
      · by_cases hic : i = c
        · have hcp : ¬c = p := fun h => hip (hic.trans h)
          simp [setLevel, updNode, apply_ite GNode.edges, hip, hic, hcp, hx]
          exact hic ▸ hx
        · simp [setLevel, updNode, apply_ite GNode.edges, hip, hic, hx]
    · by_cases hpc : p = c <;>
        simp [setLevel, updNode, apply_ite GNode.edges, hpc]

/-- Witness for `updateEdgeLevel_termination`: the empty heap terminates
under the constant rank; the self-loop heap `exLoop` starves every fuel; a
self-edge `AddEdge(0, 0)` never completes. -/
theorem updateEdgeLevel_termination_witness :
    (∃ fuel t, uel fuel emptyState 0 = some t) ∧
    (∀ fuel, uel fuel exLoop 0 = none) ∧
    (addEdge 5 emptyState 0 0 = none) :=
  ⟨updateEdgeLevel_termination.1 emptyState 0 (fun _ => 0)
      (fun u v hv => absurd hv (by simp [emptyState])),
    fun fuel => updateEdgeLevel_termination.2.1 exLoop 0 0 0 1 (Steps.refl 0)
      (Steps.tail (Steps.refl 0) (by simp [exLoop])) (le_refl 1) fuel,
    updateEdgeLevel_termination.2.2 5 emptyState 0 0 0 (Steps.refl 0)⟩

/-- C10: `RemoveEdge(p, c)` with `c` absent from `p`'s edge list returns
`false` and leaves the whole heap — edge lists, dependency lists, degrees and
levels of every node — untouched. -/
theorem removeEdge_missing_edge_noop (s : State) (p c : Nat) (h : c ∉ (s p).edges) :
    removeEdge s p c = (false, s) := by
  simp [removeEdge, h]

/-- Witness for `removeEdge_missing_edge_noop` at a concrete heap. -/
theorem removeEdge_missing_edge_noop_witness :
    (1 ∉ (emptyState 0).edges) ∧ removeEdge emptyState 0 1 = (false, emptyState) :=
  ⟨by decide, removeEdge_missing_edge_noop emptyState 0 1 (by decide)⟩

/-- C1 counterexample: node 0 (level 5) is the only parent of node 1;
after `RemoveEdge(0, 1)` node 1 has no parents left, yet its level is 6 =
`parent.level + 1` for the very parent being removed — not 0 as the claim's
"maximum over remaining parents excluding p" would demand. -/
theorem removeEdge_level_cex :
    ((removeEdge exC1 0 1).2 1).deps = [] ∧
    ((removeEdge exC1 0 1).2 1).level = 6 ∧
    ((removeEdge exC1 0 1).2 1).level ≠ 0 := by decide

/-- C6 counterexample: cloning a node with id 7 and level 3 yields a node
whose id is still 7 and whose level is still 3, refuting "fresh
process-unique id, level 0". -/
theorem clone_keeps_id_level_cex :
    (cloneNode exNode).id = exNode.id ∧ (cloneNode exNode).level = 3 ∧
    ¬((cloneNode exNode).level = 0 ∧ (cloneNode exNode).id ≠ exNode.id) := by decide

/-- C6 (amended): `clone()` deep-copies the operation parameters and copies
id, level and both degree counters from the original, while the edge and
dependency lists start empty; only the ordinary constructor draws a fresh id
from the counter and starts at level 0. -/
theorem cloneNode_spec {α : Type} (n : NodeObj α) (nextID : Nat) (q : α) :
    (cloneNode n).params = n.params ∧ (cloneNode n).id = n.id ∧
    (cloneNode n).level = n.level ∧ (cloneNode n).inDegree = n.inDegree ∧
    (cloneNode n).outDegree = n.outDegree ∧ (cloneNode n).edges = [] ∧
    (cloneNode n).deps = [] ∧
    (mkNode nextID q).id = nextID ∧ (mkNode nextID q).level = 0 ∧
    (mkNode nextID q).edges = [] ∧ (mkNode nextID q).deps = [] :=
  ⟨rfl, rfl, rfl, rfl, rfl, rfl, rfl, rfl, rfl, rfl, rfl⟩

/-- C4: with both an enter (100) and an exit (101) bound command recorded,
replay enqueues the sub-graph traces and the exit command but never the enter
command — `commands_.size() == 2` defeats the `size() == 1` guard that was
meant to fire the enter command; with only the enter command present it is
enqueued, showing the intended role of `commands_[0]`. -/
theorem childEnqueue_order_bug :
    childEnqueue (childCreateCommands (some 100) (some 101)) [[1], [2]] = [1, 2, 101] ∧
    100 ∉ childEnqueue (childCreateCommands (some 100) (some 101)) [[1], [2]] ∧
    childEnqueue (childCreateCommands (some 100) (none : Option Nat)) [[1], [2]] = [100, 1, 2] := by
  decide

/-- C8 counterexample: with one allocated queue, the call after the last one
does not wrap back to the first queue — it reads past the end (modelled
`none`). -/
theorem getAvailableQueue_wrap_cex :
    (getAvailableQueue [5] ((getAvailableQueue ([5] : List Nat) 0).2)).1 = none ∧
    (getAvailableQueue [5] ((getAvailableQueue ([5] : List Nat) 0).2)).1 ≠ some 5 := by
  decide

/-- C8 (amended): `GetAvailableQueue` returns the queue at the current cursor
and post-increments it; the result is an element of the allocated list only
while the cursor is in range, and the cursor never wraps — the call at index
`length` is out of bounds (`ResetQueueIndex` is the only way back to 0). -/
theorem getAvailableQueue_no_wrap {α : Type} (qs : List α) (idx : Nat)
    (h : idx < qs.length) :
    (getAvailableQueue qs idx).1 = some (qs.get ⟨idx, h⟩) ∧
    (getAvailableQueue qs idx).2 = idx + 1 ∧
    (getAvailableQueue qs qs.length).1 = none ∧
    resetQueueIndex idx = 0 := by
  refine ⟨?_, rfl, ?_, rfl⟩
  · simp [getAvailableQueue, List.get?_eq_get h]
  · simp [getAvailableQueue]

/-- Witness for `getAvailableQueue_no_wrap` on a two-queue list. -/
theorem getAvailableQueue_no_wrap_witness :
    1 < ([3, 7] : List Nat).length ∧
    ((getAvailableQueue [3, 7] 1).1 = some 7 ∧
      (getAvailableQueue [3, 7] 1).2 = 2 ∧
      (getAvailableQueue ([3, 7] : List Nat) 2).1 = none ∧
      resetQueueIndex 1 = 0) := by
  refine ⟨by decide, ?_⟩
  have h := getAvailableQueue_no_wrap ([3, 7] : List Nat) 1 (by decide)
  simpa using h

/-- C3 counterexample: destroying node 0 (whose only edge goes to node 1)
runs `RemoveDependency` on node 1 without touching its `inDegree_`: node 1
ends with an empty dependency list but `inDegree = 1`, violating the
"cached counts always equal list lengths" invariant that held beforehand. -/
theorem detach_breaks_degree_cex :
    (exC3 1).inDegree = (exC3 1).deps.length ∧
    ((detach exC3 0) 1).deps = [] ∧
    ((detach exC3 0) 1).inDegree = 1 ∧
    ((detach exC3 0) 1).inDegree ≠ ((detach exC3 0) 1).deps.length := by decide

/-- C1 (amended): `RemoveEdge(p, c)` with the edge present removes `c` from
`p`'s edge list and `p` from `c`'s dependency list, decrements `p.outDegree`
and `c.inDegree`, and sets `c.level` to the maximum of `parent.level + 1`
over `c`'s dependency list as it stands at call time — `p` is still in that
list, because `RemoveDependency` runs only after the recompute — with 0 for
an empty list; no level change is propagated to any other node. -/
theorem removeEdge_present_spec (s : State) (p c : Nat) (hc : c ∈ (s p).edges) :
    (removeEdge s p c).1 = true ∧
    (∀ x, x ∈ ((removeEdge s p c).2 p).edges ↔ (x ∈ (s p).edges ∧ x ≠ c)) ∧
    (∀ x, x ∈ ((removeEdge s p c).2 c).deps ↔ (x ∈ (s c).deps ∧ x ≠ p)) ∧
    ((removeEdge s p c).2 p).outDegree = (s p).outDegree - 1 ∧
    ((removeEdge s p c).2 c).inDegree = (s c).inDegree - 1 ∧
    ((removeEdge s p c).2 c).level
      = (s c).deps.foldl (fun acc q => max acc ((s q).level + 1)) 0 ∧
    (∀ i, i ≠ p → i ≠ c → (removeEdge s p c).2 i = s i) := by
  have hseven : ∀ i, i ≠ p → i ≠ c → (removeEdge s p c).2 i = s i := by
    intro i hip hic
    simp [removeEdge, hc, removeDependency, setLevel, updNode, hip, hic]
  by_cases hpc : p = c
  · subst hpc
    refine ⟨?_, ?_, ?_, ?_, ?_, ?_, hseven⟩ <;>
      simp [removeEdge, hc, removeDependency, setLevel, updNode, List.mem_filter,
        apply_ite GNode.level, apply_ite GNode.deps, apply_ite GNode.edges,
        apply_ite GNode.inDegree, apply_ite GNode.outDegree, and_comm]
  · refine ⟨?_, ?_, ?_, ?_, ?_, ?_, hseven⟩ <;>
      simp [removeEdge, hc, removeDependency, setLevel, updNode, List.mem_filter,
        apply_ite GNode.level, apply_ite GNode.deps, apply_ite GNode.edges,
        apply_ite GNode.inDegree, apply_ite GNode.outDegree, hpc, Ne.symm hpc, and_comm]

/-- Witness for `removeEdge_present_spec` on the two-node heap `exC1`. -/
theorem removeEdge_present_spec_witness :
    (1 ∈ (exC1 0).edges) ∧
    ((removeEdge exC1 0 1).1 = true ∧
      (∀ x, x ∈ ((removeEdge exC1 0 1).2 0).edges ↔ (x ∈ (exC1 0).edges ∧ x ≠ 1)) ∧
      (∀ x, x ∈ ((removeEdge exC1 0 1).2 1).deps ↔ (x ∈ (exC1 1).deps ∧ x ≠ 0)) ∧
      ((removeEdge exC1 0 1).2 0).outDegree = (exC1 0).outDegree - 1 ∧
      ((removeEdge exC1 0 1).2 1).inDegree = (exC1 1).inDegree - 1 ∧
      ((removeEdge exC1 0 1).2 1).level
        = (exC1 1).deps.foldl (fun acc q => max acc ((exC1 q).level + 1)) 0 ∧
      (∀ i, i ≠ 0 → i ≠ 1 → (removeEdge exC1 0 1).2 i = exC1 i)) :=
  ⟨by decide, removeEdge_present_spec exC1 0 1 (by decide)⟩

/-- C5 counterexample, on a heap reached purely by `AddEdge`/`RemoveEdge`
calls from the empty heap: after building `0→1→2→4` and `3→4` and removing
`2→4` (which leaves node 4 at level 3), removing and immediately re-adding
`3→4` drops node 4's level to 1 — the pair is not a no-op on levels. -/
theorem remove_add_pair_cex :
    (stChainE 4).level = 3 ∧ 4 ∈ (stChainE 3).edges ∧
    (addEdge 9 stChainF 3 4).isSome = true ∧
    (stChainG 4).level = 1 ∧ (stChainG 4).level ≠ (stChainE 4).level := by decide

/-- C7: for every node kind that validates parameters (Kernel, Memcpy1D,
Memset, Memcpy to/from symbol), whenever `SetParams` returns an error — in
particular whenever any of its validation checks fails — the node's persisted
parameters (and, for the kernel node, its resolved function) are exactly what
they were before the call. -/
theorem setParams_validation_failure_preserves :
    (∀ (validate : KernelParams → HipError) (getFunc : Nat → Option Nat)
        (curFunc : Nat) (cur ps : KernelParams),
        (kernelSetParams validate getFunc curFunc cur ps).1 ≠ .success →
        (kernelSetParams validate getFunc curFunc cur ps).2 = (curFunc, cur)) ∧
    (∀ (validate : Memcpy1DParams → HipError) (cur ps : Memcpy1DParams),
        (memcpy1DSetParams validate cur ps).1 ≠ .success →
        (memcpy1DSetParams validate cur ps).2 = cur) ∧
    (∀ (env : MemEnv) (cur ps : MemsetParams),
        (memsetSetParams env cur ps).1 ≠ .success →
        (memsetSetParams env cur ps).2 = cur) ∧
    (∀ (symEnv : SymEnv) (memEnv : MemEnv) (cur ps : FromSymbolParams),
        (fromSymbolSetParams symEnv memEnv cur ps).1 ≠ .success →
        (fromSymbolSetParams symEnv memEnv cur ps).2 = cur) ∧
    (∀ (kindTypes : MemcpyKind → MemType × MemType) (symEnv : SymEnv) (memEnv : MemEnv)
        (cur ps : ToSymbolParams),
        (toSymbolSetParams kindTypes symEnv memEnv cur ps).1 ≠ .success →
        (toSymbolSetParams kindTypes symEnv memEnv cur ps).2 = cur) := by
  refine ⟨?_, ?_, ?_, ?_, ?_⟩
  · intro validate getFunc curFunc cur ps h
    by_cases h1 : validate ps = .success
    · by_cases h2 : ps.func = cur.func
      · exfalso; apply h; simp [kernelSetParams, h1, h2]
      · cases hg : getFunc ps.func with
        | none => simp [kernelSetParams, h1, h2, hg]
        | some f => exfalso; apply h; simp [kernelSetParams, h1, h2, hg]
    · simp [kernelSetParams, h1]
  · intro validate cur ps h
    simp only [memcpy1DSetParams] at h ⊢
    split at h <;> simp_all
  · intro env cur ps h
    simp only [memsetSetParams] at h ⊢
    split at h <;> simp_all
  · intro symEnv memEnv cur ps h
    by_cases h1 : ihipMemcpySymbol_validate symEnv ps.dst ps.count ps.offset = .success
    · simp [fromSymbolSetParams, h1]
    · by_cases h2 : ihipMemcpySymbol_validate symEnv ps.symbol ps.count ps.offset = .success
      · by_cases h3 : memEnv ps.dst = none ∧ ps.kind ≠ .hostToDevice
        · simp [fromSymbolSetParams, h1, h2, h3]
        · by_cases h4 : memEnv ps.dst ≠ none ∧ ps.kind ≠ .deviceToDevice
          · simp [fromSymbolSetParams, h1, h2, h3, h4]
          · by_cases h5 : ps.kind = .hostToHost ∨ ps.kind = .deviceToHost
            · simp [fromSymbolSetParams, h1, h2, h3, h4, h5]
            · exfalso; apply h; simp [fromSymbolSetParams, h1, h2, h3, h4, h5]
      · simp [fromSymbolSetParams, h1, h2]
  · intro kindTypes symEnv memEnv cur ps h
    by_cases c1 : (memOverrun (memEnv ps.symbol) ps.count ps.offset
        ∨ memOverrun (memEnv ps.src) ps.count ps.offset)
    · simp [toSymbolSetParams, c1]
    · by_cases c2 : (kindTypes ps.kind).1
          = (if memEnv ps.src = none then MemType.host else MemType.device)
      · by_cases c3 : (kindTypes ps.kind).2
            = (if memEnv ps.symbol = none then MemType.host else MemType.device)
        · by_cases c4 : ihipMemcpySymbol_validate symEnv ps.symbol ps.count ps.offset = .success
          · exfalso; apply h; simp [toSymbolSetParams, c1, c2, c3, c4]
          · simp [toSymbolSetParams, c1, c2, c3, c4]
        · simp [toSymbolSetParams, c1, c2, c3]
      · simp [toSymbolSetParams, c1, c2]


/-- Witness for `setParams_validation_failure_preserves`: a memset update
with element size 3 is rejected and the persisted block is untouched. -/
theorem setParams_validation_failure_preserves_witness :
    (memsetSetParams exMemEnv exMemsetOk exMemsetBad).1 ≠ HipError.success ∧
    (memsetSetParams exMemEnv exMemsetOk exMemsetBad).2 = exMemsetOk :=
  ⟨by decide,
    setParams_validation_failure_preserves.2.2.1 exMemEnv exMemsetOk exMemsetBad (by decide)⟩

theorem gnode_ext {a b : GNode} (h1 : a.level = b.level) (h2 : a.inDegree = b.inDegree)
    (h3 : a.outDegree = b.outDegree) (h4 : a.edges = b.edges) (h5 : a.deps = b.deps) :
    a = b := by
  cases a
  cases b
  simp_all

theorem foldl_max_init (g : Nat → Nat) (l : List Nat) (a : Nat) :
    a ≤ l.foldl (fun acc x => max acc (g x)) a := by
  induction l generalizing a with
  | nil => exact le_refl a
  | cons x xs ih => exact le_trans (le_max_left a (g x)) (ih (max a (g x)))

theorem foldl_max_mem (g : Nat → Nat) (l : List Nat) (q : Nat) (hq : q ∈ l) (a : Nat) :
    g q ≤ l.foldl (fun acc x => max acc (g x)) a := by
  induction l generalizing a with
  | nil => cases hq
  | cons x xs ih =>
    rcases List.mem_cons.mp hq with rfl | hxs
    · exact le_trans (le_max_right a (g q)) (foldl_max_init g xs _)
    · exact ih hxs _

theorem removeEdge_r_p (s : State) (p c : Nat) (hc : c ∈ (s p).edges) (hpc : p ≠ c) :
    (removeEdge s p c).2 p = { s p with
      edges := (s p).edges.filter (fun q => decide (q ≠ c)),
      outDegree := (s p).outDegree - 1 } := by
  simp [removeEdge, hc, removeDependency, setLevel, updNode, hpc, Ne.symm hpc]

theorem removeEdge_r_c (s : State) (p c : Nat) (hc : c ∈ (s p).edges) (hpc : p ≠ c) :
    (removeEdge s p c).2 c = { s c with
      inDegree := (s c).inDegree - 1,
      level := (s c).deps.foldl (fun a q => max a ((s q).level + 1)) 0,
      deps := (s c).deps.filter (fun q => decide (q ≠ p)) } := by
  simp [removeEdge, hc, removeDependency, setLevel, updNode, hpc, Ne.symm hpc,
    apply_ite GNode.level, apply_ite GNode.deps]

theorem removeEdge_r_other (s : State) (p c i : Nat) (hip : i ≠ p) (hic : i ≠ c) :
    (removeEdge s p c).2 i = s i := by
  by_cases hc : c ∈ (s p).edges
  · simp [removeEdge, hc, removeDependency, setLevel, updNode, hip, hic]
  · simp [removeEdge, hc]

/-- C5 (amended): on a heap satisfying the transitive level invariant and
whose `c.level` equals the maximum over its dependency list of
`parent.level + 1` (with positive cached degrees, as on any consistent
state), `RemoveEdge(p, c)` immediately followed by a completed
`AddEdge(p, c)` restores `c.level`, both nodes' levels and in/out degrees,
and both nodes' edge/dependency membership as sets, leaving every other node
untouched.  Without the level hypothesis the pair can lower `c.level` (see
the counterexample): the claim as stated fails on reachable graphs. -/
theorem remove_add_pair_restores (fuel : Nat) (s : State) (p c : Nat) (t : State)
    (hinv : LevelInv s)
    (hlev : (s c).level = (s c).deps.foldl (fun a q => max a ((s q).level + 1)) 0)
    (hedge : c ∈ (s p).edges)
    (hdep : p ∈ (s c).deps)
    (hop : 1 ≤ (s p).outDegree) (hip : 1 ≤ (s c).inDegree)
    (hpair : addEdge fuel ((removeEdge s p c).2) p c = some t) :
    (t c).level = (s c).level ∧ (t p).level = (s p).level ∧
    (t p).outDegree = (s p).outDegree ∧ (t c).inDegree = (s c).inDegree ∧
    (t p).inDegree = (s p).inDegree ∧ (t c).outDegree = (s c).outDegree ∧
    (∀ x, x ∈ (t p).edges ↔ x ∈ (s p).edges) ∧
    (∀ x, x ∈ (t c).deps ↔ x ∈ (s c).deps) ∧
    (∀ i, i ≠ p → i ≠ c → t i = s i) := by
  have hpc : p ≠ c := by
    intro h
    subst h
    have := hinv p p hedge
    omega
  have hrp := removeEdge_r_p s p c hedge hpc
  have hrc := removeEdge_r_c s p c hedge hpc
  have hrcl : ((removeEdge s p c).2 c).level = (s c).level := by
    rw [hrc]
    exact hlev.symm
  have hrpl : ((removeEdge s p c).2 p).level = (s p).level := by rw [hrp]
  have hrops : ((removeEdge s p c).2 p).outDegree = (s p).outDegree - 1 := by rw [hrp]
  have hrice : ((removeEdge s p c).2 c).inDegree = (s c).inDegree - 1 := by rw [hrc]
  have hrpe : ((removeEdge s p c).2 p).edges
      = (s p).edges.filter (fun q => decide (q ≠ c)) := by rw [hrp]
  have hrcd : ((removeEdge s p c).2 c).deps
      = (s c).deps.filter (fun q => decide (q ≠ p)) := by rw [hrc]
  have hrce : ((removeEdge s p c).2 c).edges = (s c).edges := by rw [hrc]
  have hrpd : ((removeEdge s p c).2 p).deps = (s p).deps := by rw [hrp]
  have hrco : ((removeEdge s p c).2 c).outDegree = (s c).outDegree := by rw [hrc]
  have hrpi : ((removeEdge s p c).2 p).inDegree = (s p).inDegree := by rw [hrp]
  have hple : (s p).level + 1 ≤ (s c).level := by
    rw [hlev]
    exact foldl_max_mem (fun q => (s q).level + 1) ((s c).deps) p hdep 0
  have hmaxeq : max (((removeEdge s p c).2 c).level)
      (((removeEdge s p c).2 p).level + 1) = (s c).level := by
    rw [hrcl, hrpl]
    exact max_eq_left hple
  obtain ⟨s4, h4, ht⟩ := Option.map_eq_some'.mp hpair
  subst ht
  have key : ∀ (S3 : State),
      (∀ j, (S3 j).edges
        = if j = p then ((removeEdge s p c).2 j).edges ++ [c]
          else ((removeEdge s p c).2 j).edges) →
      (∀ j, (S3 j).deps = ((removeEdge s p c).2 j).deps) →
      (∀ j, (S3 j).outDegree
        = if j = p then ((removeEdge s p c).2 j).outDegree + 1
          else ((removeEdge s p c).2 j).outDegree) →
      (∀ j, (S3 j).inDegree
        = if j = c then ((removeEdge s p c).2 j).inDegree + 1
          else ((removeEdge s p c).2 j).inDegree) →
      (∀ j, (S3 j).level
        = if j = c then max (((removeEdge s p c).2 c).level)
            (((removeEdge s p c).2 p).level + 1)
          else ((removeEdge s p c).2 j).level) →
      uel fuel S3 c = some s4 →
      ((addDependency s4 c p) c).level = (s c).level ∧
      ((addDependency s4 c p) p).level = (s p).level ∧
      ((addDependency s4 c p) p).outDegree = (s p).outDegree ∧
      ((addDependency s4 c p) c).inDegree = (s c).inDegree ∧
      ((addDependency s4 c p) p).inDegree = (s p).inDegree ∧
      ((addDependency s4 c p) c).outDegree = (s c).outDegree ∧
      (∀ x, x ∈ ((addDependency s4 c p) p).edges ↔ x ∈ (s p).edges) ∧
      (∀ x, x ∈ ((addDependency s4 c p) c).deps ↔ x ∈ (s c).deps) ∧
      (∀ i, i ≠ p → i ≠ c → (addDependency s4 c p) i = s i) := by
    intro S3 hE hD hO hI hL h4x
    have hLall : ∀ j, (S3 j).level = (s j).level := by
      intro j
      rw [hL j]
      by_cases hjc : j = c
      · rw [if_pos hjc, hmaxeq, hjc]
      · rw [if_neg hjc]
        by_cases hjp : j = p
        · rw [hjp, hrpl]
        · rw [removeEdge_r_other s p c j hjp hjc]
    have hEmem : ∀ u x, x ∈ (S3 u).edges → x ∈ (s u).edges := by
      intro u x hx
      rw [hE u] at hx
      by_cases hup : u = p
      · subst hup
        rw [if_pos rfl, hrpe] at hx
        rcases List.mem_append.mp hx with h1 | h2
        · exact (List.mem_filter.mp h1).1
        · rw [List.mem_singleton.mp h2]
          exact hedge
      · rw [if_neg hup] at hx
        by_cases huc : u = c
        · subst huc
          rw [hrce] at hx
          exact hx
        · rw [removeEdge_r_other s p c u hup huc] at hx
          exact hx
    have hS3inv : LevelInv S3 := by
      intro u v hv
      rw [hLall u, hLall v]
      exact hinv u v (hEmem u v hv)
    have hs4 : s4 = S3 := (uel_noop fuel).1 S3 s4 c h4x hS3inv
    rw [hs4]
    refine ⟨?_, ?_, ?_, ?_, ?_, ?_, ?_, ?_, ?_⟩
    · rw [addDependency_level, hLall]
    · rw [addDependency_level, hLall]
    · rw [addDependency_outDegree, hO p, if_pos rfl, hrops]
      omega
    · rw [addDependency_inDegree, hI c, if_pos rfl, hrice]
      omega
    · rw [addDependency_inDegree, hI p, if_neg hpc, hrpi]
    · rw [addDependency_outDegree, hO c, if_neg (fun h => hpc h.symm), hrco]
    · intro x
      rw [addDependency_edges, hE p, if_pos rfl, hrpe]
      constructor
      · intro hx
        rcases List.mem_append.mp hx with h1 | h2
        · exact (List.mem_filter.mp h1).1
        · rw [List.mem_singleton.mp h2]
          exact hedge
      · intro hx
        by_cases hxc : x = c
        · exact List.mem_append_right _ (List.mem_singleton.mpr hxc)
        · exact List.mem_append_left _
            (List.mem_filter.mpr ⟨hx, by simp [hxc]⟩)
    · intro x
      rw [addDependency_deps, if_pos rfl, hD c, hrcd]
      constructor
      · intro hx
        rcases List.mem_append.mp hx with h1 | h2
        · exact (List.mem_filter.mp h1).1
        · rw [List.mem_singleton.mp h2]
          exact hdep
      · intro hx
        by_cases hxp : x = p
        · exact List.mem_append_right _ (List.mem_singleton.mpr hxp)
        · exact List.mem_append_left _
            (List.mem_filter.mpr ⟨hx, by simp [hxp]⟩)
    · intro i h1 h2
      have hadd : (addDependency S3 c p) i = S3 i := by
        simp [addDependency, updNode, h2]
      rw [hadd]
      have hS3i : S3 i = (removeEdge s p c).2 i := by
        refine gnode_ext ?_ ?_ ?_ ?_ ?_
        · rw [hL i, if_neg h2]
        · rw [hI i, if_neg h2]
        · rw [hO i, if_neg h1]
        · rw [hE i, if_neg h1]
        · rw [hD i]
      rw [hS3i, removeEdge_r_other s p c i h1 h2]
  refine key _ ?_ ?_ ?_ ?_ ?_ h4
  · intro j
    by_cases hjp : j = p
    · subst hjp
      by_cases hjc : j = c <;>
        simp [setLevel, updNode, apply_ite GNode.edges, hjc]
    · by_cases hjc : j = c <;>
        simp [setLevel, updNode, apply_ite GNode.edges, hjp, hjc]
  · intro j
    by_cases hjp : j = p
    · subst hjp
      by_cases hjc : j = c <;>
        simp [setLevel, updNode, apply_ite GNode.deps, hjc]
    · by_cases hjc : j = c <;>
        simp [setLevel, updNode, apply_ite GNode.deps, hjp, hjc]
  · intro j
    by_cases hjp : j = p
    · subst hjp
      by_cases hjc : j = c <;>
        simp [setLevel, updNode, apply_ite GNode.outDegree, hjc]
    · by_cases hjc : j = c <;>
        simp [setLevel, updNode, apply_ite GNode.outDegree, hjp, hjc]
  · intro j
    by_cases hjc : j = c
    · subst hjc
      by_cases hjp : j = p <;>
        simp [setLevel, updNode, apply_ite GNode.inDegree, hjp]
    · by_cases hjp : j = p <;>
        simp [setLevel, updNode, apply_ite GNode.inDegree, hjp, hjc]
  · intro j
    by_cases hjc : j = c
    · subst hjc
      by_cases hjp : j = p <;>
        simp [setLevel, updNode, apply_ite GNode.level, hjp]
    · by_cases hjp : j = p <;>
        simp [setLevel, updNode, apply_ite GNode.level, hjp, hjc]


/-- Witness for `remove_add_pair_restores` on the two-node heap `exC1`. -/
theorem remove_add_pair_restores_witness :
    LevelInv exC1 ∧
    ((exC1 1).level = (exC1 1).deps.foldl (fun a q => max a ((exC1 q).level + 1)) 0) ∧
    (1 ∈ (exC1 0).edges) ∧ (0 ∈ (exC1 1).deps) ∧
    (1 ≤ (exC1 0).outDegree) ∧ (1 ≤ (exC1 1).inDegree) ∧
    (addEdge 4 ((removeEdge exC1 0 1).2) 0 1 = some stPair) ∧
    ((stPair 1).level = (exC1 1).level ∧ (stPair 0).level = (exC1 0).level ∧
      (stPair 0).outDegree = (exC1 0).outDegree ∧
      (stPair 1).inDegree = (exC1 1).inDegree ∧
      (stPair 0).inDegree = (exC1 0).inDegree ∧
      (stPair 1).outDegree = (exC1 1).outDegree ∧
      (∀ x, x ∈ (stPair 0).edges ↔ x ∈ (exC1 0).edges) ∧
      (∀ x, x ∈ (stPair 1).deps ↔ x ∈ (exC1 1).deps) ∧
      (∀ i, i ≠ 0 → i ≠ 1 → stPair i = exC1 i)) := by
  have hinvW : LevelInv exC1 := by
    intro u v hv
    by_cases hu0 : u = 0
    · subst hu0
      simp [exC1] at hv
      subst hv
      decide
    · by_cases hu1 : u = 1
      · subst hu1
        simp [exC1] at hv
      · simp [exC1, hu0, hu1] at hv
  exact ⟨hinvW, by decide, by decide, by decide, by decide, by decide, rfl,
    remove_add_pair_restores 4 exC1 0 1 stPair hinvW (by decide) (by decide)
      (by decide) (by decide) (by decide) rfl⟩

theorem length_filter_ne (l : List Nat) (c : Nat) :
    (l.filter (fun q => decide (q ≠ c))).length + l.count c = l.length := by
  induction l with
  | nil => rfl
  | cons x xs ih =>
    by_cases hx : x = c <;>
      simp [List.count_cons, List.filter_cons, hx] at ih ⊢ <;> omega

theorem addEdge_mid_fields (fuel : Nat) (s : State) (p c : Nat) (t : State)
    (hsucc : addEdge fuel s p c = some t) :
    ∃ S3 s4, uel fuel S3 c = some s4 ∧ t = addDependency s4 c p ∧
      (∀ j, (S3 j).edges = if j = p then (s j).edges ++ [c] else (s j).edges) ∧
      (∀ j, (S3 j).deps = (s j).deps) ∧
      (∀ j, (S3 j).outDegree = if j = p then (s j).outDegree + 1 else (s j).outDegree) ∧
      (∀ j, (S3 j).inDegree = if j = c then (s j).inDegree + 1 else (s j).inDegree) ∧
      (∀ j, (S3 j).level
        = if j = c then max ((s c).level) ((s p).level + 1) else (s j).level) := by
  obtain ⟨s4, h4, ht⟩ := Option.map_eq_some'.mp hsucc
  refine ⟨_, s4, h4, ht.symm, ?_, ?_, ?_, ?_, ?_⟩
  · intro j
    by_cases hjp : j = p
    · subst hjp
      by_cases hjc : j = c <;>
        simp [setLevel, updNode, apply_ite GNode.edges, hjc]
    · by_cases hjc : j = c <;>
        simp [setLevel, updNode, apply_ite GNode.edges, hjp, hjc]
  · intro j
    by_cases hjp : j = p
    · subst hjp
      by_cases hjc : j = c <;>
        simp [setLevel, updNode, apply_ite GNode.deps, hjc]
    · by_cases hjc : j = c <;>
        simp [setLevel, updNode, apply_ite GNode.deps, hjp, hjc]
  · intro j
    by_cases hjp : j = p
    · subst hjp
      by_cases hjc : j = c <;>
        simp [setLevel, updNode, apply_ite GNode.outDegree, hjc]
    · by_cases hjc : j = c <;>
        simp [setLevel, updNode, apply_ite GNode.outDegree, hjp, hjc]
  · intro j
    by_cases hjc : j = c
    · subst hjc
      by_cases hjp : j = p <;>
        simp [setLevel, updNode, apply_ite GNode.inDegree, hjp]
    · by_cases hjp : j = p <;>
        simp [setLevel, updNode, apply_ite GNode.inDegree, hjp, hjc]
  · intro j
    by_cases hjc : j = c
    · subst hjc
      by_cases hjp : j = p <;>
        simp [setLevel, updNode, apply_ite GNode.level, hjp]
    · by_cases hjp : j = p <;>
        simp [setLevel, updNode, apply_ite GNode.level, hjp, hjc]

theorem removeEdge_r_self (s : State) (p : Nat) (hc : p ∈ (s p).edges) :
    (removeEdge s p p).2 p = {
      level := (s p).deps.foldl (fun a q => max a ((s q).level + 1)) 0,
      inDegree := (s p).inDegree - 1, outDegree := (s p).outDegree - 1,
      edges := (s p).edges.filter (fun q => decide (q ≠ p)),
      deps := (s p).deps.filter (fun q => decide (q ≠ p)) } := by
  simp [removeEdge, hc, removeDependency, setLevel, updNode,
    apply_ite GNode.level, apply_ite GNode.deps]

theorem filter_ne_idem (l : List Nat) (x : Nat) :
    (l.filter (fun q => decide (q ≠ x))).filter (fun q => decide (q ≠ x))
      = l.filter (fun q => decide (q ≠ x)) := by
  induction l with
  | nil => rfl
  | cons a as ih =>
    by_cases ha : a = x <;> simp [List.filter_cons, ha, ih]

theorem count_filter_ne_self (l : List Nat) (x : Nat) :
    (l.filter (fun q => decide (q ≠ x))).count x = 0 := by
  refine List.count_eq_zero.mpr ?_
  intro hmem
  have := List.mem_filter.mp hmem
  simp at this

theorem removeDependency_apply (s : State) (c x j : Nat) :
    (removeDependency s c x) j
      = if j = c then { s j with deps := (s j).deps.filter (fun q => decide (q ≠ x)) }
        else s j := by
  by_cases h : j = c <;> simp [removeDependency, updNode, h]

theorem foldRemoveDep_apply (L : List Nat) (s : State) (x j : Nat) :
    (L.foldl (fun acc c => removeDependency acc c x) s) j
      = if j ∈ L then { s j with deps := (s j).deps.filter (fun q => decide (q ≠ x)) }
        else s j := by
  induction L generalizing s with
  | nil => simp
  | cons c L ih =>
    rw [List.foldl_cons, ih]
    by_cases hjL : j ∈ L
    · rw [if_pos hjL, if_pos (List.mem_cons_of_mem c hjL), removeDependency_apply]
      by_cases hjc : j = c
      · simp [hjc, filter_ne_idem]
      · simp [hjc]
    · rw [if_neg hjL, removeDependency_apply]
      by_cases hjc : j = c
      · rw [if_pos hjc, if_pos (List.mem_cons.mpr (Or.inl hjc))]
      · rw [if_neg hjc, if_neg (by simp [hjc, hjL])]

theorem detachChildren_apply (s : State) (x j : Nat) :
    (detachChildren s x) j
      = if j ∈ (s x).edges
        then { s j with deps := (s j).deps.filter (fun q => decide (q ≠ x)) }
        else s j :=
  foldRemoveDep_apply ((s x).edges) s x j

theorem detachChildren_edges (s : State) (x j : Nat) :
    ((detachChildren s x) j).edges = (s j).edges := by
  rw [detachChildren_apply]
  by_cases h : j ∈ (s x).edges <;> simp [h]

theorem removeEdge_edges_proj (s : State) (p c j : Nat) :
    ((removeEdge s p c).2 j).edges
      = if j = p ∧ c ∈ (s p).edges
        then (s p).edges.filter (fun q => decide (q ≠ c)) else (s j).edges := by
  by_cases hc : c ∈ (s p).edges
  · by_cases hjp : j = p
    · subst hjp
      by_cases hpc : j = c
      · subst hpc
        simp [removeEdge, hc, removeDependency, setLevel, updNode,
          apply_ite GNode.edges]
      · simp [removeEdge, hc, removeDependency, setLevel, updNode,
          apply_ite GNode.edges, hpc]
    · by_cases hjc : j = c
      · simp [removeEdge, hc, removeDependency, setLevel, updNode,
          apply_ite GNode.edges, hjp, hjc]
        by_cases hcp : c = p <;> simp [hcp]
      · simp [removeEdge, hc, removeDependency, setLevel, updNode,
          apply_ite GNode.edges, hjp, hjc]
  · simp [removeEdge, hc]

theorem removeEdge_outDegree_proj (s : State) (p c j : Nat) :
    ((removeEdge s p c).2 j).outDegree
      = if j = p ∧ c ∈ (s p).edges
        then (s p).outDegree - 1 else (s j).outDegree := by
  by_cases hc : c ∈ (s p).edges
  · by_cases hjp : j = p
    · subst hjp
      by_cases hpc : j = c
      · subst hpc
        simp [removeEdge, hc, removeDependency, setLevel, updNode,
          apply_ite GNode.outDegree]
      · simp [removeEdge, hc, removeDependency, setLevel, updNode,
          apply_ite GNode.outDegree, hpc]
    · by_cases hjc : j = c
      · simp [removeEdge, hc, removeDependency, setLevel, updNode,
          apply_ite GNode.outDegree, hjp, hjc]
        by_cases hcp : c = p <;> simp [hcp]
      · simp [removeEdge, hc, removeDependency, setLevel, updNode,
          apply_ite GNode.outDegree, hjp, hjc]
  · simp [removeEdge, hc]

theorem removeEdge_inDegree_proj (s : State) (p c j : Nat) :
    ((removeEdge s p c).2 j).inDegree
      = if j = c ∧ c ∈ (s p).edges
        then (s c).inDegree - 1 else (s j).inDegree := by
  by_cases hc : c ∈ (s p).edges
  · by_cases hjc : j = c
    · subst hjc
      by_cases hjp : j = p
      · subst hjp
        simp [removeEdge, hc, removeDependency, setLevel, updNode,
          apply_ite GNode.inDegree]
      · simp [removeEdge, hc, removeDependency, setLevel, updNode,
          apply_ite GNode.inDegree, hjp]
    · by_cases hjp : j = p
      · simp [removeEdge, hc, removeDependency, setLevel, updNode,
          apply_ite GNode.inDegree, hjp, hjc]
        by_cases hcp : p = c <;> simp [hcp]
      · simp [removeEdge, hc, removeDependency, setLevel, updNode,
          apply_ite GNode.inDegree, hjp, hjc]
  · simp [removeEdge, hc]

theorem removeEdge_deps_proj (s : State) (p c j : Nat) :
    ((removeEdge s p c).2 j).deps
      = if j = c ∧ c ∈ (s p).edges
        then (s c).deps.filter (fun q => decide (q ≠ p)) else (s j).deps := by
  by_cases hc : c ∈ (s p).edges
  · by_cases hjc : j = c
    · subst hjc
      by_cases hjp : j = p
      · subst hjp
        simp [removeEdge, hc, removeDependency, setLevel, updNode,
          apply_ite GNode.deps]
      · simp [removeEdge, hc, removeDependency, setLevel, updNode,
          apply_ite GNode.deps, hjp]
    · by_cases hjp : j = p
      · simp [removeEdge, hc, removeDependency, setLevel, updNode,
          apply_ite GNode.deps, hjp, hjc]
        by_cases hcp : p = c <;> simp [hcp]
      · simp [removeEdge, hc, removeDependency, setLevel, updNode,
          apply_ite GNode.deps, hjp, hjc]
  · simp [removeEdge, hc]

theorem detachParentsAux_untouched (fuel : Nat) :
    ∀ (s : State) (x : Nat) (mem : List Nat) (i j : Nat), j ≠ x →
      ((detachParentsAux fuel s x mem i) j).inDegree = (s j).inDegree ∧
      ((detachParentsAux fuel s x mem i) j).deps = (s j).deps := by
  induction fuel with
  | zero =>
    intro s x mem i j _
    exact ⟨rfl, rfl⟩
  | succ f ih =>
    intro s x mem i j hjx
    rw [detachParentsAux]
    by_cases hi : i < mem.length
    · rw [if_pos hi]
      obtain ⟨h1, h2⟩ := ih ((removeEdge s (mem.getD i 0) x).2) x _ (i + 1) j hjx
      refine ⟨h1.trans ?_, h2.trans ?_⟩
      · rw [removeEdge_inDegree_proj, if_neg (fun h => hjx h.1)]
      · rw [removeEdge_deps_proj, if_neg (fun h => hjx h.1)]
    · rw [if_neg hi]
      exact ⟨rfl, rfl⟩

theorem detachParentsAux_outEq (fuel : Nat) :
    ∀ (s : State) (x : Nat) (mem : List Nat) (i : Nat),
      (∀ u, (s u).edges.count x ≤ 1) →
      ∀ j, j ≠ x → (s j).outDegree = (s j).edges.length →
      ((detachParentsAux fuel s x mem i) j).outDegree
        = ((detachParentsAux fuel s x mem i) j).edges.length := by
  induction fuel with
  | zero =>
    intro s x mem i _ j _ hout
    exact hout
  | succ f ih =>
    intro s x mem i hcnt j hjx hout
    rw [detachParentsAux]
    by_cases hi : i < mem.length
    · rw [if_pos hi]
      refine ih _ x _ (i + 1) ?_ j hjx ?_
      · intro u
        rw [removeEdge_edges_proj]
        by_cases hu : u = mem.getD i 0 ∧ x ∈ (s (mem.getD i 0)).edges
        · rw [if_pos hu, count_filter_ne_self]
          omega
        · rw [if_neg hu]
          exact hcnt u
      · rw [removeEdge_outDegree_proj, removeEdge_edges_proj]
        by_cases hj : j = mem.getD i 0 ∧ x ∈ (s (mem.getD i 0)).edges
        · rw [if_pos hj, if_pos hj]
          have hlen := length_filter_ne ((s (mem.getD i 0)).edges) x
          have hcount1 : (s (mem.getD i 0)).edges.count x = 1 := by
            have hle := hcnt (mem.getD i 0)
            have hge : 0 < (s (mem.getD i 0)).edges.count x :=
              List.count_pos_iff.mpr hj.2
            omega
          rw [← hj.1] at hlen hcount1 ⊢
          omega
        · rw [if_neg hj, if_neg hj]
          exact hout
    · rw [if_neg hi]
      exact hout


/-- C3 (amended): `AddEdge` preserves the degree-equals-list-length equality
for every node; `RemoveEdge` preserves it at both endpoints provided the
child occurs exactly once in the parent's edge list and the parent exactly
once in the child's dependency list; the copy constructor copies the degree
counters while leaving both lists empty, so a clone satisfies the equality
only when both original degrees are zero; and node destruction preserves
both equalities at every surviving node that is not a child of the dying
node — in particular at every parent, processed or not, since each
`RemoveEdge` the parent loop performs decrements `outDegree` together with
the list (no duplicate edges assumed) — but runs `RemoveDependency` on every
surviving child without decrementing its `inDegree`, so every child that
listed the dying node ends with `inDegree` strictly above its
dependency-list length. -/
theorem degree_list_consistency :
    (∀ (fuel : Nat) (s : State) (p c : Nat) (t : State), addEdge fuel s p c = some t →
      ∀ i, ((s i).outDegree = (s i).edges.length →
              (t i).outDegree = (t i).edges.length) ∧
           ((s i).inDegree = (s i).deps.length →
              (t i).inDegree = (t i).deps.length)) ∧
    (∀ (s : State) (p c : Nat), (s p).edges.count c = 1 → (s c).deps.count p = 1 →
      (((s p).outDegree = (s p).edges.length →
          ((removeEdge s p c).2 p).outDegree = ((removeEdge s p c).2 p).edges.length) ∧
       ((s c).inDegree = (s c).deps.length →
          ((removeEdge s p c).2 c).inDegree = ((removeEdge s p c).2 c).deps.length))) ∧
    (∀ (α : Type) (n : NodeObj α),
      ((cloneNode n).inDegree = (cloneNode n).deps.length ↔ n.inDegree = 0) ∧
      ((cloneNode n).outDegree = (cloneNode n).edges.length ↔ n.outDegree = 0)) ∧
    (∀ (s : State) (x c : Nat), c ∈ (s x).edges → c ≠ x →
      ((detach s x) c).inDegree = (s c).inDegree ∧
      ((detach s x) c).deps = (s c).deps.filter (fun q => decide (q ≠ x)) ∧
      (x ∈ (s c).deps → (s c).inDegree = (s c).deps.length →
        ((detach s x) c).deps.length < ((detach s x) c).inDegree)) ∧
    (∀ (s : State) (x j : Nat), (∀ u, (s u).edges.count x ≤ 1) →
      j ≠ x → j ∉ (s x).edges →
      (s j).outDegree = (s j).edges.length → (s j).inDegree = (s j).deps.length →
      ((detach s x) j).outDegree = ((detach s x) j).edges.length ∧
      ((detach s x) j).inDegree = ((detach s x) j).deps.length) := by
  refine ⟨?_, ?_, ?_, ?_, ?_⟩
  · intro fuel s p c t hsucc i
    obtain ⟨S3, s4, h4, ht, hE, hD, hO, hI, _⟩ := addEdge_mid_fields fuel s p c t hsucc
    subst ht
    have hsh := ((uel_shape_mono fuel).1 _ _ _ h4).1
    constructor
    · intro hout
      rw [addDependency_outDegree, addDependency_edges, (hsh i).2.2.2, (hsh i).1,
        hO i, hE i]
      by_cases hip : i = p
      · subst hip
        simp [hout]
      · simp [hip, hout]
    · intro hin
      rw [addDependency_inDegree, addDependency_deps, (hsh i).2.2.1]
      by_cases hic : i = c
      · rw [if_pos hic, (hsh i).2.1, hI i, if_pos hic, hD i, List.length_append, hin]
        rfl
      · rw [if_neg hic, (hsh i).2.1, hI i, if_neg hic, hD i, hin]
  · intro s p c h1 h2
    have hc : c ∈ (s p).edges := by
      have : 0 < (s p).edges.count c := by omega
      exact List.count_pos_iff.mp this
    by_cases hpc : p = c
    · subst hpc
      have hself := removeEdge_r_self s p hc
      constructor
      · intro hout
        rw [hself]
        have := length_filter_ne ((s p).edges) p
        dsimp only
        omega
      · intro hin
        rw [hself]
        have := length_filter_ne ((s p).deps) p
        dsimp only
        omega
    · have hrp := removeEdge_r_p s p c hc hpc
      have hrc := removeEdge_r_c s p c hc hpc
      constructor
      · intro hout
        rw [hrp]
        have := length_filter_ne ((s p).edges) c
        dsimp only
        omega
      · intro hin
        rw [hrc]
        have := length_filter_ne ((s c).deps) p
        dsimp only
        omega
  · intro α n
    constructor
    · simp [cloneNode]
    · simp [cloneNode]
  · intro s x c hcx hcnex
    have hd : detach s x
        = detachParentsAux (((detachChildren s x) x).deps.length + 1)
            (detachChildren s x) x (((detachChildren s x) x).deps) 0 := rfl
    have hs1c : (detachChildren s x) c
        = { s c with deps := (s c).deps.filter (fun q => decide (q ≠ x)) } := by
      rw [detachChildren_apply, if_pos hcx]
    obtain ⟨hin, hdeps⟩ := detachParentsAux_untouched
      (((detachChildren s x) x).deps.length + 1) (detachChildren s x) x
      (((detachChildren s x) x).deps) 0 c hcnex
    rw [hd]
    refine ⟨?_, ?_, ?_⟩
    · rw [hin, hs1c]
    · rw [hdeps, hs1c]
    · intro hx hineq
      rw [hin, hdeps, hs1c]
      have hcount : 0 < (s c).deps.count x := List.count_pos_iff.mpr hx
      have hlen := length_filter_ne ((s c).deps) x
      dsimp only
      omega
  · intro s x j hcnt hjx hnotchild ho hi
    have hd : detach s x
        = detachParentsAux (((detachChildren s x) x).deps.length + 1)
            (detachChildren s x) x (((detachChildren s x) x).deps) 0 := rfl
    have hs1j : (detachChildren s x) j = s j := by
      rw [detachChildren_apply, if_neg hnotchild]
    have hcnt1 : ∀ u, ((detachChildren s x) u).edges.count x ≤ 1 := by
      intro u
      rw [detachChildren_edges]
      exact hcnt u
    obtain ⟨hin, hdeps⟩ := detachParentsAux_untouched
      (((detachChildren s x) x).deps.length + 1) (detachChildren s x) x
      (((detachChildren s x) x).deps) 0 j hjx
    rw [hd]
    constructor
    · refine detachParentsAux_outEq _ _ _ _ _ hcnt1 j hjx ?_
      rw [hs1j]
      exact ho
    · rw [hin, hdeps, hs1j]
      exact hi


/-- Witness for `degree_list_consistency`, one concrete instance per part. -/
theorem degree_list_consistency_witness :
    (addEdge 3 emptyState 0 1 = some stW ∧
      ∀ i, ((emptyState i).outDegree = (emptyState i).edges.length →
              (stW i).outDegree = (stW i).edges.length) ∧
           ((emptyState i).inDegree = (emptyState i).deps.length →
              (stW i).inDegree = (stW i).deps.length)) ∧
    ((exC1 0).edges.count 1 = 1 ∧ (exC1 1).deps.count 0 = 1 ∧
      (((exC1 0).outDegree = (exC1 0).edges.length →
          ((removeEdge exC1 0 1).2 0).outDegree
            = ((removeEdge exC1 0 1).2 0).edges.length) ∧
       ((exC1 1).inDegree = (exC1 1).deps.length →
          ((removeEdge exC1 0 1).2 1).inDegree
            = ((removeEdge exC1 0 1).2 1).deps.length))) ∧
    (((cloneNode exNode).inDegree = (cloneNode exNode).deps.length
        ↔ exNode.inDegree = 0) ∧
      ((cloneNode exNode).outDegree = (cloneNode exNode).edges.length
        ↔ exNode.outDegree = 0)) ∧
    (1 ∈ (exC3 0).edges ∧ (1 : Nat) ≠ 0 ∧
      (((detach exC3 0) 1).inDegree = (exC3 1).inDegree ∧
        ((detach exC3 0) 1).deps = (exC3 1).deps.filter (fun q => decide (q ≠ 0)) ∧
        (0 ∈ (exC3 1).deps → (exC3 1).inDegree = (exC3 1).deps.length →
          ((detach exC3 0) 1).deps.length < ((detach exC3 0) 1).inDegree))) ∧
    ((∀ u, (exC1 u).edges.count 1 ≤ 1) ∧ (0 : Nat) ≠ 1 ∧ 0 ∉ (exC1 1).edges ∧
      (exC1 0).outDegree = (exC1 0).edges.length ∧
      (exC1 0).inDegree = (exC1 0).deps.length ∧
      (((detach exC1 1) 0).outDegree = ((detach exC1 1) 0).edges.length ∧
        ((detach exC1 1) 0).inDegree = ((detach exC1 1) 0).deps.length)) := by
  have hcnt : ∀ u, (exC1 u).edges.count 1 ≤ 1 := by
    intro u
    by_cases h0 : u = 0
    · subst h0
      decide
    · by_cases h1 : u = 1
      · subst h1
        decide
      · simp [exC1, h0, h1]
  exact ⟨⟨rfl, degree_list_consistency.1 3 emptyState 0 1 stW rfl⟩,
    ⟨by decide, by decide, degree_list_consistency.2.1 exC1 0 1 (by decide) (by decide)⟩,
    degree_list_consistency.2.2.1 Nat exNode,
    ⟨by decide, by decide,
      degree_list_consistency.2.2.2.1 exC3 0 1 (by decide) (by decide)⟩,
    ⟨hcnt, by decide, by decide, by decide, by decide,
      degree_list_consistency.2.2.2.2 exC1 1 0 hcnt (by decide) (by decide)
        (by decide) (by decide)⟩⟩


end HipGraph

